import Mathlib

/-!
Verification development for the change-detection core of
standard_name_helper.py (CCPPStandardNames repository).

The script is Python 3.  Lines of catalog text are modelled as lists of
characters, catalog files as lists of lines.  Code that can raise a Python
exception is modelled in the monad Except PyErr.  The similarity machinery
of the standard library module difflib, which the script calls, is modelled
from the difflib reference semantics (SequenceMatcher with isjunk=None,
get_close_matches, unified_diff); similarity scores are exact fractions
compared by cross-multiplication, which agrees with the float scores of
CPython for the token sizes the script handles, since distinct scores of
short tokens differ by far more than the floating-point rounding error.
-/

/-- A line of text, as a list of characters. -/
abbrev Line := List Char

/-- A standard-name token. -/
abbrev Name := List Char

/-- One change record: (old, new).  Both set means rename, old empty means
pure addition, new empty means pure removal.  Python truthiness of a string
is nonemptiness. -/
abbrev ChangeRec := Name × Name

/-- A Python exception, carried as a message. -/
abbrev PyErr := String

/-- Models Python str.lower for the ASCII tokens the script handles. -/
def pyLower (s : Line) : Line := s.map Char.toLower

/-- Models the Python containment test sub in s (contiguous substring). -/
def containsSub (sub : Line) : Line → Bool
  | [] => sub.isEmpty
  | c :: rest => sub.isPrefixOf (c :: rest) || containsSub sub rest

/-- Models Python str.split with a one-character separator. -/
def pySplitOn (delim : Char) : Line → List Line
  | [] => [[]]
  | c :: rest =>
    if c = delim then [] :: pySplitOn delim rest
    else
      match pySplitOn delim rest with
      | [] => [[c]]
      | p :: ps => (c :: p) :: ps

/-- Models Python list indexing l[i], which raises IndexError out of range. -/
def pyGet {α : Type} (l : List α) (i : Nat) : Except PyErr α :=
  match l.get? i with
  | some x => Except.ok x
  | none => Except.error "IndexError: list index out of range"

/-- Removal of the first occurrence of an element from a list. -/
def pyErase {α : Type} [DecidableEq α] : List α → α → List α
  | [], _ => []
  | y :: ys, x => if y = x then ys else y :: pyErase ys x

/-- Models Python list.remove(x): deletes the first occurrence of x, raises
ValueError when x is not present. -/
def pyRemove {α : Type} [DecidableEq α] (l : List α) (x : α) : Except PyErr (List α) :=
  if x ∈ l then Except.ok (pyErase l x) else
    Except.error "ValueError: list.remove(x): x not in list"

/-- Models the Python string order (lexicographic on code points). -/
def pyStrLt : Line → Line → Bool
  | [], [] => false
  | [], _ :: _ => true
  | _ :: _, [] => false
  | c :: cs, d :: ds => if c = d then pyStrLt cs ds else decide (c < d)

section SeqMatch

variable {α : Type} [DecidableEq α]

/-- Fuel-driven run length: the fuel carries the distance to the a-side
bound, so the recursion is structural. -/
def runLenAux (a b : List α) (pop : α → Bool) (bhi : Nat) :
    Nat → Nat → Nat → Nat
  | 0, _, _ => 0
  | fuel + 1, i, j =>
    if j < bhi then
      match a.get? i, b.get? j with
      | some x, some y =>
        if x = y ∧ ¬ pop y then runLenAux a b pop bhi fuel (i + 1) (j + 1) + 1 else 0
      | _, _ => 0
    else 0

/-- Length of the run of pointwise-equal elements of a and b starting at
positions i and j, staying below ahi and bhi and avoiding b-elements the
popularity heuristic discards (the b2j table of SequenceMatcher omits
popular elements, so matching runs never contain them). -/
def runLen (a b : List α) (pop : α → Bool) (ahi bhi : Nat) (i j : Nat) : Nat :=
  runLenAux a b pop bhi (ahi - i) i j

/-- Candidate block list: all start positions inside the window. -/
def blockCandidates (alo ahi blo bhi : Nat) : List (Nat × Nat) :=
  (List.range' alo (ahi - alo)).flatMap fun i =>
    (List.range' blo (bhi - blo)).map fun j => (i, j)

/-- Core of SequenceMatcher.find_longest_match: of all maximal matching
blocks in the window, the one starting earliest in a, then earliest in b.
The fold visits i ascending then j ascending and replaces the best block
only on strictly larger length, which realises exactly that tie-break. -/
def flmCore (a b : List α) (pop : α → Bool) (alo ahi blo bhi : Nat) : Nat × Nat × Nat :=
  (blockCandidates alo ahi blo bhi).foldl
    (fun best ij =>
      let k := runLen a b pop ahi bhi ij.1 ij.2
      if k > best.2.2 then (ij.1, ij.2, k) else best)
    (alo, blo, 0)

/-- Leftward extension of a block over equal elements (the first extension
loop of find_longest_match; with isjunk=None the junk test there passes).
The recursion is structural on besti. -/
def extendLeft (a b : List α) (alo blo : Nat) :
    Nat → Nat → Nat → Nat × Nat × Nat
  | 0, bestj, bestsize => (0, bestj, bestsize)
  | besti + 1, bestj, bestsize =>
    if alo < besti + 1 ∧ blo < bestj then
      match a.get? besti, b.get? (bestj - 1) with
      | some x, some y =>
        if x = y then extendLeft a b alo blo besti (bestj - 1) (bestsize + 1)
        else (besti + 1, bestj, bestsize)
      | _, _ => (besti + 1, bestj, bestsize)
    else (besti + 1, bestj, bestsize)

/-- Fuel-driven rightward extension: the fuel carries the distance from the
block end to the a-side bound. -/
def extendRightAux (a b : List α) (bhi : Nat) :
    Nat → Nat → Nat → Nat → Nat × Nat × Nat
  | 0, besti, bestj, bestsize => (besti, bestj, bestsize)
  | fuel + 1, besti, bestj, bestsize =>
    if bestj + bestsize < bhi then
      match a.get? (besti + bestsize), b.get? (bestj + bestsize) with
      | some x, some y =>
        if x = y then extendRightAux a b bhi fuel besti bestj (bestsize + 1)
        else (besti, bestj, bestsize)
      | _, _ => (besti, bestj, bestsize)
    else (besti, bestj, bestsize)

/-- Rightward extension of a block over equal elements (the second
extension loop of find_longest_match). -/
def extendRight (a b : List α) (ahi bhi : Nat) (besti bestj bestsize : Nat) :
    Nat × Nat × Nat :=
  extendRightAux a b bhi (ahi - (besti + bestsize)) besti bestj bestsize

/-- Models SequenceMatcher.find_longest_match with isjunk=None: the core
search over the popularity-filtered table, then the two extension loops
(the final junk-only extension loops are no-ops since the junk set is
empty). -/
def findLongestMatch (a b : List α) (pop : α → Bool) (alo ahi blo bhi : Nat) :
    Nat × Nat × Nat :=
  let best := flmCore a b pop alo ahi blo bhi
  let best := extendLeft a b alo blo best.1 best.2.1 best.2.2
  extendRight a b ahi bhi best.1 best.2.1 best.2.2

/-- Models the autojunk popularity heuristic of SequenceMatcher.__chain_b:
with autojunk on and len(b) at least 200, elements occurring more than
len(b)/100 + 1 times in b are dropped from the match table. -/
def bpopular (b : List α) : α → Bool :=
  if 200 ≤ b.length then fun x => b.length / 100 + 1 < b.count x
  else fun _ => false

/-- Recursion of SequenceMatcher.get_matching_blocks: split the window at
the longest match and recurse on both sides.  The fuel exceeds the a-window
size, which bounds the recursion depth. -/
def matchingBlocksAux (a b : List α) (pop : α → Bool) :
    Nat → Nat → Nat → Nat → Nat → List (Nat × Nat × Nat)
  | 0, _, _, _, _ => []
  | fuel + 1, alo, ahi, blo, bhi =>
    let best := findLongestMatch a b pop alo ahi blo bhi
    let i := best.1; let j := best.2.1; let k := best.2.2
    if k = 0 then []
    else
      matchingBlocksAux a b pop fuel alo i blo j ++ [(i, j, k)] ++
        matchingBlocksAux a b pop fuel (i + k) ahi (j + k) bhi

/-- Merge loop of get_matching_blocks: a pending block absorbs each block
immediately adjacent to it on both sides and is emitted when the chain
breaks; a pending block of size zero is dropped. -/
def mergeRun (cur : Nat × Nat × Nat) : List (Nat × Nat × Nat) → List (Nat × Nat × Nat)
  | [] => if cur.2.2 ≠ 0 then [cur] else []
  | bl :: rest =>
    if cur.1 + cur.2.2 = bl.1 ∧ cur.2.1 + cur.2.2 = bl.2.1 then
      mergeRun (cur.1, cur.2.1, cur.2.2 + bl.2.2) rest
    else (if cur.2.2 ≠ 0 then [cur] else []) ++ mergeRun bl rest

/-- Merge step of get_matching_blocks: adjacent blocks are coalesced
starting from the zero pending block, then the terminal sentinel block
(len a, len b, 0) is appended. -/
def mergeAdjacent (la lb : Nat) (blocks : List (Nat × Nat × Nat)) :
    List (Nat × Nat × Nat) :=
  mergeRun (0, 0, 0) blocks ++ [(la, lb, 0)]

/-- Models SequenceMatcher.get_matching_blocks for SequenceMatcher(None,a,b). -/
def pyMatchingBlocks (a b : List α) : List (Nat × Nat × Nat) :=
  mergeAdjacent a.length b.length
    (matchingBlocksAux a b (bpopular b) (a.length + 1) 0 a.length 0 b.length)

/-- Total number of matched elements over all matching blocks. -/
def matchTotal (a b : List α) : Nat :=
  (pyMatchingBlocks a b).foldl (fun acc bl => acc + bl.2.2) 0

end SeqMatch

/-- A similarity score as an exact fraction: numerator over positive
denominator.  Two scores compare as their rational values, by
cross-multiplication. -/
abbrev Score := Nat × Nat

/-- Exact comparison of two score fractions. -/
def scoreLe (s t : Score) : Bool := decide (s.1 * t.2 ≤ t.1 * s.2)

/-- Strict exact comparison of two score fractions. -/
def scoreLt (s t : Score) : Bool := decide (s.1 * t.2 < t.1 * s.2)

/-- Exact equality of two score fractions. -/
def scoreEq (s t : Score) : Bool := decide (s.1 * t.2 = t.1 * s.2)

/-- Models SequenceMatcher(None, x, w).ratio(): 2*M/T, and 1.0 when both
sequences are empty.  The first argument is seq1, the second seq2, matching
the argument roles get_close_matches sets up. -/
def simScore (x w : Line) : Score :=
  let t := x.length + w.length
  if t = 0 then (1, 1) else (2 * matchTotal x w, t)

/-- Descending insertion for score/string pairs, ordered first by score and
then by the Python string order; used to model heapq.nlargest over the
(score, string) tuples built by get_close_matches, where an equal score is
broken in favour of the larger string. -/
def insDesc (x : Score × Line) : List (Score × Line) → List (Score × Line)
  | [] => [x]
  | y :: ys =>
    if scoreLt x.1 y.1 || (scoreEq x.1 y.1 && pyStrLt x.2 y.2) then y :: insDesc x ys
    else x :: y :: ys

/-- Sorts score/string pairs into descending tuple order. -/
def sortDesc (l : List (Score × Line)) : List (Score × Line) :=
  l.foldr insDesc []

/-- Models difflib.get_close_matches(word, possibilities, n, cutoff): keep
the possibilities whose ratio to word reaches the cutoff, order them by
descending (score, string) tuple, return the first n strings. -/
def getCloseMatches (word : Line) (poss : List Line) (n : Nat) (cutoff : Score) :
    List Line :=
  let scored := (poss.filter fun x => scoreLe cutoff (simScore x word)).map
    fun x => (simScore x word, x)
  ((sortDesc scored).take n).map (·.2)

/-- Tag of a diff opcode. -/
inductive DTag where
  | replace
  | delete
  | insert
  | equal
deriving DecidableEq, Repr

/-- One opcode of SequenceMatcher.get_opcodes. -/
structure Opcode where
  tag : DTag
  i1 : Nat
  i2 : Nat
  j1 : Nat
  j2 : Nat
deriving DecidableEq, Repr

/-- Walk of SequenceMatcher.get_opcodes from a cursor pair: emit a
replace/delete/insert opcode for the gap before each block and an equal
opcode for each nonempty block. -/
def opcodesWalk (i j : Nat) : List (Nat × Nat × Nat) → List Opcode
  | [] => []
  | bl :: rest =>
    let ai := bl.1; let bj := bl.2.1; let size := bl.2.2
    (if i < ai ∧ j < bj then [⟨DTag.replace, i, ai, j, bj⟩]
     else if i < ai then [⟨DTag.delete, i, ai, j, bj⟩]
     else if j < bj then [⟨DTag.insert, i, ai, j, bj⟩]
     else []) ++
    (if size ≠ 0 then [⟨DTag.equal, ai, ai + size, bj, bj + size⟩] else []) ++
    opcodesWalk (ai + size) (bj + size) rest

/-- Models SequenceMatcher.get_opcodes on a matching-block list. -/
def getOpcodes (blocks : List (Nat × Nat × Nat)) : List Opcode :=
  opcodesWalk 0 0 blocks

/-- Adjustment of the leading equal opcode in get_grouped_opcodes. -/
def adjustFirst (n : Nat) : List Opcode → List Opcode
  | [] => []
  | c :: rest =>
    if c.tag = DTag.equal then
      ⟨DTag.equal, max c.i1 (c.i2 - n), c.i2, max c.j1 (c.j2 - n), c.j2⟩ :: rest
    else c :: rest

/-- Adjustment of the trailing equal opcode in get_grouped_opcodes. -/
def adjustLast (n : Nat) (codes : List Opcode) : List Opcode :=
  match codes.getLast? with
  | none => []
  | some c =>
    if c.tag = DTag.equal then
      codes.dropLast ++ [⟨DTag.equal, c.i1, min c.i2 (c.i1 + n), c.j1, min c.j2 (c.j1 + n)⟩]
    else codes

/-- One step of the grouping loop of get_grouped_opcodes: a wide interior
equal opcode flushes the current group. -/
def groupStep (n : Nat) (st : List (List Opcode) × List Opcode) (c : Opcode) :
    List (List Opcode) × List Opcode :=
  if c.tag = DTag.equal ∧ n + n < c.i2 - c.i1 then
    (st.1 ++ [st.2 ++ [⟨DTag.equal, c.i1, min c.i2 (c.i1 + n), c.j1, min c.j2 (c.j1 + n)⟩]],
     [⟨DTag.equal, max c.i1 (c.i2 - n), c.i2, max c.j1 (c.j2 - n), c.j2⟩])
  else (st.1, st.2 ++ [c])

/-- Models SequenceMatcher.get_grouped_opcodes(n). -/
def getGroupedOpcodes (n : Nat) (codes0 : List Opcode) : List (List Opcode) :=
  let codes := if codes0.isEmpty then [⟨DTag.equal, 0, 1, 0, 1⟩] else codes0
  let codes := adjustLast n (adjustFirst n codes)
  let st := codes.foldl (groupStep n) ([], [])
  if st.2 ≠ [] ∧ ¬ (st.2.length = 1 ∧ (st.2.headD ⟨DTag.equal, 0, 0, 0, 0⟩).tag = DTag.equal)
  then st.1 ++ [st.2] else st.1

/-- Python slice l[i1:i2]. -/
def pySlice {α : Type} (l : List α) (i1 i2 : Nat) : List α :=
  (l.drop i1).take (i2 - i1)

/-- Decimal rendering of a number for the hunk header. -/
def natRepr (n : Nat) : Line := (toString n).data

/-- Models difflib._format_range_unified. -/
def formatRangeUnified (start stop : Nat) : Line :=
  let beginning := start + 1
  let length := stop - start
  if length = 1 then natRepr beginning
  else natRepr (if length = 0 then beginning - 1 else beginning) ++ [','] ++ natRepr length

/-- Lines a unified diff emits for one opcode of a group. -/
def emitOpcode (a b : List Line) (c : Opcode) : List Line :=
  if c.tag = DTag.equal then (pySlice a c.i1 c.i2).map (fun l => ' ' :: l)
  else
    (if c.tag = DTag.replace ∨ c.tag = DTag.delete then
      (pySlice a c.i1 c.i2).map (fun l => '-' :: l) else []) ++
    (if c.tag = DTag.replace ∨ c.tag = DTag.insert then
      (pySlice b c.j1 c.j2).map (fun l => '+' :: l) else [])

/-- Hunk header line of a group (lineterm is the empty string). -/
def hunkHeader (g : List Opcode) : Line :=
  let first := g.headD ⟨DTag.equal, 0, 0, 0, 0⟩
  let last := g.getLastD ⟨DTag.equal, 0, 0, 0, 0⟩
  "@@ -".data ++ formatRangeUnified first.i1 last.i2 ++
    " +".data ++ formatRangeUnified first.j1 last.j2 ++ " @@".data

/-- Models difflib.unified_diff(a, b, fromfile, tofile, lineterm=two
primes, n=0), as called at lines 197-198 of the script: the two header
lines precede the first group, then each group contributes its hunk header
and its prefixed lines. -/
def pyUnifiedDiff (a b : List Line) (fromfile tofile : Line) : List Line :=
  let groups := getGroupedOpcodes 0 (getOpcodes (pyMatchingBlocks a b))
  if groups.isEmpty then []
  else
    ("--- ".data ++ fromfile) :: ("+++ ".data ++ tofile) ::
      groups.flatMap (fun g => hunkHeader g :: g.flatMap (emitOpcode a b))

/-- The declaration marker the script searches for (line 127 and others). -/
def MARKER : Line := "standard_name name=".data

/-- Similarity cutoff of the automatic hunk branch (script line 50). -/
def GET_CLOSE_MATCHES_NONINTERACTIVE_CUTOFF : Score := (1, 2)

/-- Similarity cutoff of the two reconciliation sweeps (script line 51). -/
def GET_CLOSE_MATCHES_SECOND_PASS_CUTOFF : Score := (7, 10)

/-- Name extraction from a line: line.split(quote)[1], raising IndexError
when the line holds fewer than two quote-separated fields. -/
def extractTok (l : Line) : Except PyErr Name :=
  pyGet (pySplitOn '"' l) 1

/-- Equal-count branch of process_diff_lines (lines 124-128): the loop
pairs line i of minus_lines with line i of plus_lines and records the two
extracted tokens when both lines carry the marker. -/
def pairPositional : List Line → List Line → Except PyErr (List ChangeRec)
  | m :: ms, p :: ps =>
    if containsSub MARKER m ∧ containsSub MARKER p then do
      let tm ← extractTok m
      let tp ← extractTok p
      let rest ← pairPositional ms ps
      pure ((tm, tp) :: rest)
    else pairPositional ms ps
  | _, _ => pure []

/-- Token collection loops of process_diff_lines (lines 131-133, 136-138,
142-147): each marker-bearing line contributes its extracted token. -/
def extractNames : List Line → Except PyErr (List Name)
  | [] => pure []
  | l :: ls =>
    if containsSub MARKER l then do
      let t ← extractTok l
      let rest ← extractNames ls
      pure (t :: rest)
    else extractNames ls

/-- Greedy matching loop of the automatic mismatched branch (lines
170-181): each removal takes its single best close match above the cutoff
out of the shrinking addition pool, or becomes a pure removal. -/
def greedyLoop : List Name → List Name → List ChangeRec →
    Except PyErr (List ChangeRec × List Name)
  | [], pool, acc => pure (acc, pool)
  | r :: rs, pool, acc =>
    match getCloseMatches r pool 1 GET_CLOSE_MATCHES_NONINTERACTIVE_CUTOFF with
    | [] => greedyLoop rs pool (acc ++ [(r, ([] : Name))])
    | c :: _ => do
      let pool ← pyRemove pool c
      greedyLoop rs pool (acc ++ [(r, c)])

/-- Models process_diff_lines (lines 119-185).  The module constant
INTERACTIVE is False (line 48), so the mismatched case takes the automatic
get_close_matches branch; the unreachable interactive branch is modelled
separately through get_choice. -/
def process_diff_lines (std_name_changes : List ChangeRec)
    (minus_lines plus_lines : List Line) : Except PyErr (List ChangeRec) :=
  if minus_lines.length = plus_lines.length then do
    let pairs ← pairPositional minus_lines plus_lines
    pure (std_name_changes ++ pairs)
  else if minus_lines.length = 0 then do
    let adds ← extractNames plus_lines
    pure (std_name_changes ++ adds.map fun t => (([] : Name), t))
  else if plus_lines.length = 0 then do
    let dels ← extractNames minus_lines
    pure (std_name_changes ++ dels.map fun t => (t, ([] : Name)))
  else do
    let potential_removals ← extractNames minus_lines
    let potential_additions ← extractNames plus_lines
    let res ← greedyLoop potential_removals potential_additions []
    pure (std_name_changes ++ res.1 ++ res.2.map fun t => (([] : Name), t))

/-- Diff-line dispatch loop of find_changed_vars (lines 204-217): each diff
line is lowercased, a line containing the hunk mark flushes the gathered
minus/plus lists through process_diff_lines, and other lines are routed by
their first character (an empty line would raise IndexError at line[0]). -/
def classifyLoop : List Line → List ChangeRec → List Line → List Line →
    Except PyErr (List ChangeRec × List Line × List Line)
  | [], chg, minus, plus => pure (chg, minus, plus)
  | l :: rest, chg, minus, plus =>
    if containsSub "@@".data (pyLower l) then do
      let chg ← process_diff_lines chg minus plus
      classifyLoop rest chg [] []
    else
      match pyLower l with
      | [] => Except.error "IndexError: string index out of range"
      | c :: cs =>
        if c = '-' then classifyLoop rest chg (minus ++ [c :: cs]) plus
        else if c = '+' then classifyLoop rest chg minus (plus ++ [c :: cs])
        else classifyLoop rest chg minus plus

/-- Rename records of a change list: both fields truthy. -/
def renameRecs (L : List ChangeRec) : List ChangeRec :=
  L.filter fun x => !x.1.isEmpty && !x.2.isEmpty

/-- Pure-addition values of a change list. -/
def newNames (L : List ChangeRec) : List Name :=
  (L.filter fun x => x.1.isEmpty && !x.2.isEmpty).map (·.2)

/-- Pure-removal sources of a change list. -/
def deletedNames (L : List ChangeRec) : List Name :=
  (L.filter fun x => !x.1.isEmpty && x.2.isEmpty).map (·.1)

/-- One iteration of reconciliation sweep 1 (lines 228-247), for rename
record r, against the list snapshots taken before the loop. -/
def sweep1Step (repsNew news : List Name) (cur : List ChangeRec) (r : ChangeRec) :
    Except PyErr (List ChangeRec) :=
  match getCloseMatches r.1 news 1 GET_CLOSE_MATCHES_SECOND_PASS_CUTOFF with
  | [] => pure cur
  | c :: _ => do
    let mo ← pyGet (getCloseMatches r.1 [r.2, c] 2 (0, 1)) 0
    if mo = c then
      if c ∈ repsNew then do
        let cur ← pyRemove cur r
        let cur := cur ++ [(([] : Name), r.2)]
        let orig ← pyGet ((cur.filter fun x => x.2 == c).map (·.1)) 0
        pure (cur ++ [(orig, ([] : Name)), (r.1, c)])
      else do
        let cur ← pyRemove cur r
        pure (cur ++ [(([] : Name), r.2), (r.1, c)])
    else pure cur

/-- Reconciliation sweep 1 (lines 224-247). -/
def sweep1 (L : List ChangeRec) : Except PyErr (List ChangeRec) :=
  let reps := renameRecs L
  let repsNew := reps.map (·.2)
  let news := newNames L
  reps.foldlM (sweep1Step repsNew news) L

/-- One iteration of reconciliation sweep 2 (lines 255-272) for deleted
name d.  The loop variable d is already a bare name, so the source
expression d[0] denotes its first character, and the source statement
remove(d) asks to delete a bare string from a list of pairs, which is
never present, hence always a ValueError. -/
def sweep2Step (repsNew news : List Name) (cur : List ChangeRec) (d : Name) :
    Except PyErr (List ChangeRec) :=
  match getCloseMatches (d.take 1) news 1 GET_CLOSE_MATCHES_SECOND_PASS_CUTOFF with
  | [] => pure cur
  | c :: _ =>
    if c ∈ repsNew then do
      let orig ← pyGet ((cur.filter fun x => x.2 == c).map (·.1)) 0
      let mo ← pyGet (getCloseMatches c [d.take 1, orig] 2 (0, 1)) 0
      if mo = d.take 1 then
        Except.error "ValueError: list.remove(x): x not in list"
      else pure cur
    else do
      let cur ← pyRemove cur (d, ([] : Name))
      let cur ← pyRemove cur (([] : Name), c)
      pure (cur ++ [(d, c)])

/-- Reconciliation sweep 2 (lines 250-272). -/
def sweep2 (L : List ChangeRec) : Except PyErr (List ChangeRec) :=
  let repsNew := (renameRecs L).map (·.2)
  let news := newNames L
  let dels := deletedNames L
  dels.foldlM (sweep2Step repsNew news) L

/-- The two global reconciliation sweeps of find_changed_vars, in order. -/
def globalReconcile (L : List ChangeRec) : Except PyErr (List ChangeRec) := do
  sweep2 (← sweep1 L)

/-- Count of rename records (line 274). -/
def nReplacements (L : List ChangeRec) : Nat :=
  (L.filter fun x => !x.1.isEmpty && !x.2.isEmpty).length

/-- Count of pure additions (line 275). -/
def nAdds (L : List ChangeRec) : Nat :=
  (L.filter fun x => x.1.isEmpty && !x.2.isEmpty).length

/-- Count of pure removals (line 276). -/
def nRemovals (L : List ChangeRec) : Nat :=
  (L.filter fun x => !x.1.isEmpty && x.2.isEmpty).length

/-- Tentative change list of find_changed_vars (lines 197-219): the hunks
of the zero-context unified diff, classified in order. -/
def tentativeOf (a b : List Line) (ff tf : Line) : Except PyErr (List ChangeRec) := do
  let st ← classifyLoop (pyUnifiedDiff a b ff tf) [] [] []
  process_diff_lines st.1 st.2.1 st.2.2

/-- Models find_changed_vars (lines 187-278) on the two file texts, given
as lists of lines, with the two file names that label the diff headers. -/
def find_changed_vars (file1Text file2Text : List Line) (oldFile newFile : Line) :
    Except PyErr (List ChangeRec × Nat × Nat × Nat) := do
  let chg ← tentativeOf file1Text file2Text oldFile newFile
  let chg ← globalReconcile chg
  pure (chg, nReplacements chg, nAdds chg, nRemovals chg)

/-- Models parse_change_file (lines 341-359) on an already-loaded change
list.  In Python 3 the guard at line 350 evaluates
host_metadata.keys() + physics_metadata.keys(), and concatenating two
dict_keys views raises TypeError, so the first record with both fields
set aborts the call; records with an empty field short-circuit the guard
and are always kept. -/
def parse_change_file (changes : List ChangeRec)
    (_host_metadata _physics_metadata : List Name) :
    Except PyErr (List ChangeRec × Nat × Nat × Nat) := do
  let kept ← changes.foldlM
    (fun acc c =>
      if !c.1.isEmpty && !c.2.isEmpty then
        Except.error "TypeError: unsupported operand type(s) for +: dict_keys and dict_keys"
      else pure (acc ++ [c]))
    ([] : List ChangeRec)
  pure (kept, nReplacements kept, nAdds kept, nRemovals kept)

/-- A Python value an interactive choice variable can hold: the initial
int sentinel or a string returned by input(). -/
inductive PyVal where
  | int (n : Int)
  | str (s : Line)
deriving DecidableEq, Repr

/-- Python 3 membership of a value in range(k): an int is tested
numerically; a string compares unequal to every int, so it is never a
member. -/
def pyInRange : PyVal → Nat → Bool
  | .int n, k => decide (0 ≤ n ∧ n < (k : Int))
  | .str _, _ => false

/-- While loop of get_choice (lines 410-412), driven by the finite list of
operator inputs still available; none models the loop prompting forever
after exhausting them. -/
def get_choice_loop (k : Nat) (choice : PyVal) (inputs : List Line) : Option PyVal :=
  if pyInRange choice k then some choice
  else
    match inputs with
    | [] => none
    | s :: rest => get_choice_loop k (.str s) rest

/-- Models get_choice (lines 408-413) called with choices = range(k), as
process_diff_lines does at line 156. -/
def get_choice (k : Nat) (inputs : List Line) : Option PyVal :=
  get_choice_loop k (.int (-999)) inputs


/-- Hunk view of the diff-line dispatch loop: the sequence of
(minus_lines, plus_lines) pairs the loop hands to process_diff_lines,
including the final pair flushed after the loop.  An empty lowered line is
never produced by the diff, so this total function agrees with the loop
wherever the loop succeeds. -/
def collectHunks : List Line → List Line → List Line → List (List Line × List Line)
  | [], minus, plus => [(minus, plus)]
  | l :: rest, minus, plus =>
    if containsSub "@@".data (pyLower l) then (minus, plus) :: collectHunks rest [] []
    else
      match pyLower l with
      | [] => [(minus, plus)]
      | c :: cs =>
        if c = '-' then collectHunks rest (minus ++ [c :: cs]) plus
        else if c = '+' then collectHunks rest minus (plus ++ [c :: cs])
        else collectHunks rest minus plus

/-- Partition of one hunk body into its lowered minus lines and plus
lines, in order. -/
def bodyPartition (ls : List Line) : List Line × List Line :=
  (ls.filterMap fun l0 =>
     match pyLower l0 with
     | '-' :: rest => some ('-' :: rest)
     | _ => none,
   ls.filterMap fun l0 =>
     match pyLower l0 with
     | '+' :: rest => some ('+' :: rest)
     | _ => none)

/-- The name a line declares, as the pipeline sees it: the lowered line
must carry the marker, and the token is its second quote-delimited field. -/
def declOf (l : Line) : Option Name :=
  if containsSub MARKER (pyLower l) = true then (pySplitOn '"' (pyLower l)).get? 1
  else none

/-- All names declared by the lines of a text, in order. -/
def declaredNames (t : List Line) : List Name :=
  t.filterMap declOf

/-- A line is token-good when, if it carries the marker, its extracted
token is not the empty string. -/
abbrev tokGoodLine (l : Line) : Prop :=
  containsSub MARKER l = true → (pySplitOn '"' l).get? 1 ≠ some []

/-- No name of a change list is both a pure-addition value and the target
of a rename record. -/
abbrev noSharedTarget (L : List ChangeRec) : Prop :=
  ∀ c ∈ newNames L, c ∉ (renameRecs L).map (·.2)

/-- Duplicate test for the rename targets of a change list. -/
def hasDupRenameTargets (L : List ChangeRec) : Bool :=
  go ((renameRecs L).map (·.2))
where
  /-- Bool test for a repeated element. -/
  go : List Name → Bool
    | [] => false
    | x :: xs => xs.contains x || go xs

/-- Modelled from the spec (section 4.3, automatic mode): greedy
first-come-first-served matching of the removed names, in order, against
the shrinking pool of candidate added names at the 0.5 cutoff; leftovers
of the pool become pure additions. -/
def specGreedy : List Name → List Name → List ChangeRec
  | [], pool => pool.map fun t => (([] : Name), t)
  | r :: rs, pool =>
    match getCloseMatches r pool 1 GET_CLOSE_MATCHES_NONINTERACTIVE_CUTOFF with
    | [] => (r, ([] : Name)) :: specGreedy rs pool
    | c :: _ => (r, c) :: specGreedy rs (pyErase pool c)

/-- Pure image of greedyLoop, used to show the loop never raises. -/
def greedyPure : List Name → List Name → List ChangeRec → List ChangeRec × List Name
  | [], pool, acc => (acc, pool)
  | r :: rs, pool, acc =>
    match getCloseMatches r pool 1 GET_CLOSE_MATCHES_NONINTERACTIVE_CUTOFF with
    | [] => greedyPure rs pool (acc ++ [(r, ([] : Name))])
    | c :: _ => greedyPure rs (pyErase pool c) (acc ++ [(r, c)])

/-- Modelled from the spec (section 4.3, equal counts): the pairwise view
of positional pairing, walking the zipped minus/plus lines and recording
the token pair at every index where both lines carry the marker. -/
def zipRecords : List (Line × Line) → Except PyErr (List ChangeRec)
  | [] => pure []
  | mp :: rest =>
    if containsSub MARKER mp.1 ∧ containsSub MARKER mp.2 then do
      let tm ← extractTok mp.1
      let tp ← extractTok mp.2
      let r ← zipRecords rest
      pure ((tm, tp) :: r)
    else zipRecords rest

/-- Chained-block predicate: every block starts at or after the running
cursor, and the final cursor stays at or below the bound. -/
def ChainBound (lo hi : Nat) : List (Nat × Nat × Nat) → Prop
  | [] => lo ≤ hi
  | bl :: rest => lo ≤ bl.1 ∧ ChainBound (bl.1 + bl.2.2) hi rest

/-- Final a-side cursor after a block list. -/
def finalA (i : Nat) : List (Nat × Nat × Nat) → Nat
  | [] => i
  | bl :: rest => finalA (bl.1 + bl.2.2) rest

/-- Chained-block predicate on the b side: every block starts at or after
the running b-cursor, and the final cursor stays at or below the bound. -/
def ChainBoundB (lo hi : Nat) : List (Nat × Nat × Nat) → Prop
  | [] => lo ≤ hi
  | bl :: rest => lo ≤ bl.2.1 ∧ ChainBoundB (bl.2.1 + bl.2.2) hi rest

/-- Final b-side cursor after a block list. -/
def finalB (j : Nat) : List (Nat × Nat × Nat) → Nat
  | [] => j
  | bl :: rest => finalB (bl.2.1 + bl.2.2) rest

/-- Validity of one matching block: the matched segments agree pointwise. -/
def ValidBlock {α : Type} (a b : List α) (bl : Nat × Nat × Nat) : Prop :=
  ∀ m < bl.2.2, ∃ x, a.get? (bl.1 + m) = some x ∧ b.get? (bl.2.1 + m) = some x

/-- Input of the claim C1 evaluation: a tentative list holding the rename
(abcdefgh, zzzz), the rename (qqqq, abcdefgX) and the pure addition
abcdefgX. -/
def c1Input : List ChangeRec :=
  [("abcdefgh".data, "zzzz".data), ("qqqq".data, "abcdefgX".data), ([], "abcdefgX".data)]

/-- List the reconciliation sweeps return on c1Input. -/
def c1Output : List ChangeRec :=
  [("qqqq".data, "abcdefgX".data), ([], "abcdefgX".data), ([], "zzzz".data),
   ("qqqq".data, []), ("abcdefgh".data, "abcdefgX".data)]

/-- Input of the claim C2 evaluation: the pure removal ab, the pure
addition a and the rename (x, a). -/
def c2Input : List ChangeRec :=
  [("ab".data, []), ([], "a".data), ("x".data, "a".data)]

/-- Old text of the claim C3 counterexample: one declaration line whose
quoted token is the empty string. -/
def c3OldText : List Line := ["standard_name name=\"\" a\n".data]

/-- New text of the claim C3 counterexample. -/
def c3NewText : List Line := ["standard_name name=\"\" b\n".data]

/-- Old text of the claim C4 counterexample: one declaration line whose
name never reappears. -/
def c4OldText : List Line := ["standard_name name=\"foo\"\n".data]

/-- New text of the claim C4 counterexample: one line that declares
nothing, sitting opposite the removed declaration line. -/
def c4NewText : List Line := ["unrelated\n".data]

/-- Minus lines of the claim C5 counterexample hunk: one declaration line
and one junk line. -/
def c5Minus : List Line := ["standard_name name=\"abc\"".data, "junk".data]

/-- Plus lines of the claim C5 counterexample hunk: one declaration line. -/
def c5Plus : List Line := ["standard_name name=\"xyz\"".data]

/-- Input of the claim C6 evaluation: one stored rename record. -/
def c6Input : List ChangeRec := [("old_name".data, "new_name".data)]

/-- Input of the claim C7 counterexample: a pure addition lexically close
to the source of the rename (abcdefgh, zzzz). -/
def c7Input : List ChangeRec :=
  [([], "abcdefgh_v".data), ("abcdefgh".data, "zzzz".data)]

/-- List one application of the sweeps returns on c7Input. -/
def c7Mid : List ChangeRec :=
  [([], "abcdefgh_v".data), ([], "zzzz".data), ("abcdefgh".data, "abcdefgh_v".data)]

/-- List a second application of the sweeps returns on c7Mid. -/
def c7Final : List ChangeRec :=
  [([], "abcdefgh_v".data), ([], "zzzz".data), ([], "abcdefgh_v".data),
   ([], []), ("abcdefgh".data, "abcdefgh_v".data)]

/-- Old text of the claim C8 counterexample: a mixed-case declaration. -/
def c8OldText : List Line := ["Standard_Name name=\"FooBar\"\n".data]

/-- New text of the claim C8 counterexample. -/
def c8NewText : List Line := ["Standard_Name name=\"FooBaz\"\n".data]

/-- Minus lines of the claim C10 scenario hunk. -/
def c10Minus : List Line :=
  ["standard_name name=\"temp_a\"\n".data, "standard_name name=\"temp_b\"\n".data]

/-- Plus lines of the claim C10 scenario hunk. -/
def c10Plus : List Line := ["standard_name name=\"temp_a_renamed\"\n".data]

/-- Old text of the witnesses that instantiate the amended claims C3: one
declaration renamed in place. -/
def w3OldText : List Line := ["standard_name name=\"foo_bar\"\n".data]

/-- New text of the claim C3 witness. -/
def w3NewText : List Line := ["standard_name name=\"foo_baz\"\n".data]

/-- Old text of the claim C4 witness: one declaration that disappears. -/
def w4OldText : List Line := ["standard_name name=\"gone_var\"\n".data]

/-- New text of the claim C4 witness: empty. -/
def w4NewText : List Line := []

/-- New text of the two-sided claim C4 witness: one declaration that
replaces the old one. -/
def w4NewTextB : List Line := ["standard_name name=\"new_var\"\n".data]

/-- Minus lines of the claim C5 witness hunk: equal line counts. -/
def w5Minus : List Line := ["standard_name name=\"old_tok\"\n".data, "junk one\n".data]

/-- Plus lines of the claim C5 witness hunk. -/
def w5Plus : List Line := ["standard_name name=\"new_tok\"\n".data, "junk two\n".data]

set_option maxRecDepth 100000

/-- Characters other than the double quote stay distinct from it under
lowercasing, so the quote structure of a line survives str.lower. -/
theorem toLower_eq_quote_iff (c : Char) : c.toLower = '"' ↔ c = '"' := by
  constructor
  · intro h
    unfold Char.toLower at h
    simp only [] at h
    by_cases hg : c.toNat ≥ 65 ∧ c.toNat ≤ 90
    · rw [if_pos hg] at h
      exfalso
      obtain ⟨h1, h2⟩ := hg
      generalize hn : c.toNat = n at h h1 h2
      interval_cases n <;> exact absurd h (by decide)
    · rwa [if_neg hg] at h
  · intro h
    subst h
    rfl

/-- Splitting on the double quote never yields the empty part list. -/
theorem pySplitOn_ne_nil (d : Char) (l : Line) : pySplitOn d l ≠ [] := by
  cases l with
  | nil => simp [pySplitOn]
  | cons c rest =>
    unfold pySplitOn
    split
    · simp
    · split <;> simp

/-- Lowercasing commutes with splitting on the double quote. -/
theorem pySplitOn_lower (l : Line) :
    pySplitOn '"' (pyLower l) = (pySplitOn '"' l).map pyLower := by
  induction l with
  | nil => rfl
  | cons c rest ih =>
    show pySplitOn '"' (Char.toLower c :: pyLower rest) = _
    by_cases hc : c = '"'
    · subst hc
      show pySplitOn '"' ('"' :: pyLower rest) = _
      simpa [pySplitOn, pyLower] using ih
    · have hc' : Char.toLower c ≠ '"' := fun h => hc ((toLower_eq_quote_iff c).mp h)
      rcases hrest : pySplitOn '"' rest with _ | ⟨p, ps⟩
      · exact absurd hrest (pySplitOn_ne_nil _ _)
      · unfold pySplitOn
        rw [if_neg hc', if_neg hc, hrest, ih, hrest]
        simp [pyLower]

/-- Helper: once the running choice value is not a member of range(k), the
get_choice loop can never stop, because every later value is a string from
input() and a string is never a member of an int range in Python 3. -/
theorem get_choice_loop_none (inputs : List Line) :
    ∀ (k : Nat) (v : PyVal), pyInRange v k = false →
      get_choice_loop k v inputs = none := by
  induction inputs with
  | nil =>
    intro k v h
    unfold get_choice_loop
    simp [h]
  | cons s rest ih =>
    intro k v h
    unfold get_choice_loop
    simp only [h, Bool.false_eq_true, if_false]
    exact ih k (.str s) rfl

/-- Claim C9: the claim says get_choice returns the first entered value
inside the valid range; in Python 3 the loop compares the string returned
by input() against range(k), the comparison is always false, and the loop
never terminates, modelled here as returning none for every finite input
sequence. -/
theorem C9_get_choice_never_returns (k : Nat) (inputs : List Line) :
    get_choice k inputs = none := by
  unfold get_choice
  apply get_choice_loop_none
  have : ((-999 : Int) < (k : Int)) = True := by
    simp
    omega
  simp [pyInRange]

/-- Claim C1: evaluation of the reconciliation sweeps on a tentative list
where sweep 1 reassigns the rename (abcdefgh, zzzz) to the candidate
abcdefgX, which is already the target of the rename (qqqq, abcdefgX).  The
source appends a pure removal of qqqq but never removes the record
(qqqq, abcdefgX), so the final list carries two rename records whose new
field is abcdefgX, contradicting the no-duplicate-targets claim. -/
theorem C1_duplicate_targets_after_sweeps :
    globalReconcile c1Input = Except.ok c1Output ∧
    hasDupRenameTargets c1Output = true := ⟨rfl, rfl⟩

/-- Claim C2: evaluation of the reconciliation sweeps on a tentative list
with the pure removal ab, the pure addition a and the rename (x, a).  In
sweep 2 the source queries with the first character of the removed name
(d[0] where d is already a string), finds the candidate a, and on the
conflict branch executes list.remove(d) with the bare string d against a
list of pairs, raising ValueError, so the sweep does not complete. -/
theorem C2_sweep2_raises_value_error :
    globalReconcile c2Input =
      Except.error "ValueError: list.remove(x): x not in list" := rfl

/-- Claim C6: the replay validation of parse_change_file raises TypeError
on the first rename record, because line 350 concatenates two dict_keys
views, which Python 3 rejects; and a pure removal whose old name is
unknown is kept rather than dropped, because the truthiness guard
short-circuits before the membership test. -/
theorem C6_parse_change_file_raises_type_error :
    parse_change_file c6Input [] [] =
      Except.error "TypeError: unsupported operand type(s) for +: dict_keys and dict_keys" ∧
    parse_change_file [("missing_name".data, ([] : Name))] [] [] =
      Except.ok ([("missing_name".data, ([] : Name))], 0, 0, 1) := ⟨rfl, rfl⟩

/-- Counterexample to claim C3: on catalog texts whose declaration lines
carry an empty quoted token, find_changed_vars returns a change list whose
single record has both fields empty. -/
theorem C3_counterexample :
    find_changed_vars c3OldText c3NewText "old_file".data "new_file".data =
      Except.ok ([(([] : Name), ([] : Name))], 0, 0, 0) := rfl

/-- Counterexample to claim C4: the name foo is declared only in the old
text and is absent from the new text, yet the final change list is empty,
because the equal-count hunk pairs the removed declaration line with an
added line that is not a declaration line and the pairing condition
requires the marker on both sides. -/
theorem C4_counterexample :
    declaredNames c4OldText = ["foo".data] ∧
    declaredNames c4NewText = [] ∧
    find_changed_vars c4OldText c4NewText "old_file".data "new_file".data =
      Except.ok ([], 0, 0, 0) := ⟨rfl, rfl, rfl⟩

/-- Counterexample to claim C5: a hunk whose extracted removed-name and
added-name lists both have length one, but whose raw line counts differ,
is classified by the similarity branch, not positionally: the result is a
pure removal plus a pure addition instead of the index-wise pair. -/
theorem C5_counterexample :
    extractNames c5Minus = Except.ok ["abc".data] ∧
    extractNames c5Plus = Except.ok ["xyz".data] ∧
    process_diff_lines [] c5Minus c5Plus =
      Except.ok [("abc".data, ([] : Name)), (([] : Name), "xyz".data)] := ⟨rfl, rfl, rfl⟩

/-- Counterexample to claim C7: the reconciliation sweeps are not
idempotent.  After one application of the sweeps to c7Input, the rename
target abcdefgh_v is still listed as a pure addition, so a second
application fires sweep 1 again and appends further records, among them
one with both fields empty. -/
theorem C7_counterexample :
    globalReconcile c7Input = Except.ok c7Mid ∧
    globalReconcile c7Mid = Except.ok c7Final ∧
    c7Final ≠ c7Mid := ⟨rfl, rfl, by decide⟩

/-- Claim C7 as amended: reconciliation is idempotent only on fixed
points: when one application returns its input unchanged, chaining a
second application changes nothing; in general a second application can
make further changes. -/
theorem C7_amended (L : List ChangeRec) (h : globalReconcile L = Except.ok L) :
    (globalReconcile L >>= globalReconcile) = globalReconcile L := by
  rw [h]
  exact h

/-- Witness for the amended claim C7 at the empty change list. -/
theorem C7_amended_witness :
    (globalReconcile [] >>= globalReconcile) = globalReconcile [] :=
  C7_amended [] rfl

/-- Counterexample to claim C8: the diff loop lowercases each line before
extraction, so the record stores foobar, not the original-case token
FooBar found between the quotes of the input line. -/
theorem C8_counterexample :
    find_changed_vars c8OldText c8NewText "old_file".data "new_file".data =
      Except.ok ([("foobar".data, "foobaz".data)], 1, 0, 0) ∧
    ("foobar".data : Name) ≠ "FooBar".data := ⟨rfl, by decide⟩

/-- Claim C8 as amended: marker matching is case-insensitive because the
whole line is lowercased first, and the token extracted from the lowered
line is exactly the lowercase form of the token of the original line. -/
theorem C8_amended (l : Line) (t : Name)
    (h : (pySplitOn '"' l).get? 1 = some t) :
    (pySplitOn '"' (pyLower l)).get? 1 = some (pyLower t) := by
  rw [pySplitOn_lower]
  rw [List.get?_map, h]
  rfl

/-- Witness for the amended claim C8 on the mixed-case declaration line. -/
theorem C8_amended_witness :
    (pySplitOn '"' (pyLower "Standard_Name name=\"FooBar\"\n".data)).get? 1 =
      some (pyLower "FooBar".data) ∧
    pyLower "FooBar".data = "foobar".data :=
  ⟨C8_amended "Standard_Name name=\"FooBar\"\n".data "FooBar".data rfl, rfl⟩

/-- Reduction of an Except bind on a success value. -/
theorem okBind {α β : Type} (x : α) (f : α → Except PyErr β) :
    (Except.ok x >>= f : Except PyErr β) = f x := rfl

/-- Reduction of an Except bind on an error value. -/
theorem errBind {α β : Type} (e : PyErr) (f : α → Except PyErr β) :
    (Except.error e >>= f : Except PyErr β) = Except.error e := rfl

/-- Reduction of an Except map on a success value. -/
theorem okMap {α β : Type} (x : α) (f : α → β) :
    (Except.ok x : Except PyErr α).map f = Except.ok (f x) := rfl

/-- Reduction of an Except map on an error value. -/
theorem errMap {α β : Type} (e : PyErr) (f : α → β) :
    (Except.error e : Except PyErr α).map f = Except.error e := rfl

/-- Membership through the descending insertion. -/
theorem mem_insDesc {x y : Score × Line} {l : List (Score × Line)} :
    y ∈ insDesc x l ↔ y = x ∨ y ∈ l := by
  induction l with
  | nil => simp [insDesc]
  | cons z zs ih =>
    unfold insDesc
    split
    all_goals simp only [List.mem_cons, ih]
    all_goals try tauto

/-- Sorting by descending score keeps exactly the same members. -/
theorem mem_sortDesc {y : Score × Line} {l : List (Score × Line)} :
    y ∈ sortDesc l ↔ y ∈ l := by
  induction l with
  | nil => simp [sortDesc]
  | cons z zs ih =>
    show y ∈ insDesc z (sortDesc zs) ↔ _
    rw [mem_insDesc]
    simp only [List.mem_cons, ih]

/-- Every close match returned by get_close_matches is drawn from the
candidate list. -/
theorem getCloseMatches_subset {w c : Line} {poss : List Line} {n : Nat}
    {cut : Score} (h : c ∈ getCloseMatches w poss n cut) : c ∈ poss := by
  unfold getCloseMatches at h
  simp only [List.mem_map] at h
  obtain ⟨pr, hpr, rfl⟩ := h
  have h1 : pr ∈ sortDesc _ := List.mem_of_mem_take hpr
  rw [mem_sortDesc] at h1
  simp only [List.mem_map] at h1
  obtain ⟨x, hx, rfl⟩ := h1
  exact List.mem_of_mem_filter hx

/-- The greedy loop never raises: the candidate it removes from the pool
always is a member of the pool. -/
theorem greedyLoop_eq (R : List Name) :
    ∀ (A : List Name) (acc : List ChangeRec),
      greedyLoop R A acc = Except.ok (greedyPure R A acc) := by
  induction R with
  | nil => intro A acc; rfl
  | cons r rs ih =>
    intro A acc
    cases hm : getCloseMatches r A 1 GET_CLOSE_MATCHES_NONINTERACTIVE_CUTOFF with
    | nil =>
      have hl : greedyLoop (r :: rs) A acc = greedyLoop rs A (acc ++ [(r, ([] : Name))]) := by
        conv_lhs => unfold greedyLoop
        rw [hm]
      have hp : greedyPure (r :: rs) A acc = greedyPure rs A (acc ++ [(r, ([] : Name))]) := by
        conv_lhs => unfold greedyPure
        rw [hm]
      rw [hl, hp]
      exact ih _ _
    | cons c cs =>
      have hc : c ∈ A := getCloseMatches_subset (hm ▸ List.mem_cons_self c cs)
      have hl : greedyLoop (r :: rs) A acc =
          (pyRemove A c >>= fun pool => greedyLoop rs pool (acc ++ [(r, c)])) := by
        conv_lhs => unfold greedyLoop
        rw [hm]
      have hp : greedyPure (r :: rs) A acc = greedyPure rs (pyErase A c) (acc ++ [(r, c)]) := by
        conv_lhs => unfold greedyPure
        rw [hm]
      rw [hl, hp]
      unfold pyRemove
      rw [if_pos hc, okBind]
      exact ih (pyErase A c) (acc ++ [(r, c)])

/-- The records and leftover pool of the greedy loop assemble into the
greedy matching the specification describes. -/
theorem greedyPure_spec (R : List Name) :
    ∀ (A : List Name) (acc : List ChangeRec),
      (greedyPure R A acc).1 ++ (greedyPure R A acc).2.map (fun t => (([] : Name), t)) =
        acc ++ specGreedy R A := by
  induction R with
  | nil => intro A acc; simp [greedyPure, specGreedy]
  | cons r rs ih =>
    intro A acc
    cases hm : getCloseMatches r A 1 GET_CLOSE_MATCHES_NONINTERACTIVE_CUTOFF with
    | nil =>
      have hp : greedyPure (r :: rs) A acc = greedyPure rs A (acc ++ [(r, ([] : Name))]) := by
        conv_lhs => unfold greedyPure
        rw [hm]
      have hs : specGreedy (r :: rs) A = (r, ([] : Name)) :: specGreedy rs A := by
        conv_lhs => unfold specGreedy
        rw [hm]
      rw [hp, hs, ih]
      simp
    | cons c cs =>
      have hp : greedyPure (r :: rs) A acc = greedyPure rs (pyErase A c) (acc ++ [(r, c)]) := by
        conv_lhs => unfold greedyPure
        rw [hm]
      have hs : specGreedy (r :: rs) A = (r, c) :: specGreedy rs (pyErase A c) := by
        conv_lhs => unfold specGreedy
        rw [hm]
      rw [hp, hs, ih]
      simp

/-- Claim C10: in automatic mode a mismatched hunk with removed and added
lines on both sides is classified by greedy first-come-first-served
matching of the extracted removed names, in order, against the shrinking
pool of extracted added names at the 0.5 cutoff; removed names without a
clearing candidate become pure removals and every unconsumed added name
becomes a pure addition. -/
theorem C10_automatic_greedy (chg : List ChangeRec) (minus plus : List Line)
    (h1 : minus.length ≠ plus.length) (h2 : minus.length ≠ 0) (h3 : plus.length ≠ 0) :
    process_diff_lines chg minus plus = (do
      let removals ← extractNames minus
      let additions ← extractNames plus
      pure (chg ++ specGreedy removals additions)) := by
  unfold process_diff_lines
  rw [if_neg h1, if_neg h2, if_neg h3]
  cases hR : extractNames minus with
  | error e => rfl
  | ok R =>
    rw [okBind, okBind]
    cases hA : extractNames plus with
    | error e => rfl
    | ok A =>
      rw [okBind, okBind, greedyLoop_eq, okBind]
      show Except.ok _ = Except.ok _
      rw [List.append_assoc, greedyPure_spec]
      simp

/-- Witness for claim C10 at the scenario hunk: removing temp_a and temp_b
while adding temp_a_renamed yields the rename (temp_a, temp_a_renamed) and
the pure removal of temp_b. -/
theorem C10_witness :
    process_diff_lines [] c10Minus c10Plus =
      Except.ok [("temp_a".data, "temp_a_renamed".data), ("temp_b".data, ([] : Name))] := by
  rw [C10_automatic_greedy [] c10Minus c10Plus (by decide) (by decide) (by decide)]
  rfl

/-- Positional pairing agrees with the pairwise walk over the zipped line
lists when the line counts are equal. -/
theorem pairPositional_eq_zip : ∀ (m p : List Line), m.length = p.length →
    pairPositional m p = zipRecords (m.zip p) := by
  intro m
  induction m with
  | nil =>
    intro p h
    cases p with
    | nil => rfl
    | cons y ys => simp at h
  | cons x xs ih =>
    intro p h
    cases p with
    | nil => simp at h
    | cons y ys =>
      show pairPositional (x :: xs) (y :: ys) = zipRecords ((x, y) :: xs.zip ys)
      have hl : xs.length = ys.length := by simpa using h
      unfold pairPositional zipRecords
      split
      · rw [ih ys hl]
      · rw [ih ys hl]

/-- Claim C5 as amended: positional pairing is keyed to the raw line
counts.  When the minus and plus line counts agree, the output appends
exactly the token pairs of the indexwise-zipped lines at the positions
where both lines carry the marker, with no similarity computation; names
on lines that face a non-declaration line are dropped. -/
theorem C5_amended (chg : List ChangeRec) (minus plus : List Line)
    (h : minus.length = plus.length) :
    process_diff_lines chg minus plus =
      (zipRecords (minus.zip plus)).map (fun prs => chg ++ prs) := by
  unfold process_diff_lines
  rw [if_pos h, ← pairPositional_eq_zip minus plus h]
  cases hp : pairPositional minus plus with
  | error e => rfl
  | ok prs => rfl

/-- Witness for the amended claim C5 on an equal-count hunk with one
declaration pair and one junk pair. -/
theorem C5_amended_witness :
    process_diff_lines [] w5Minus w5Plus =
      Except.ok [("old_tok".data, "new_tok".data)] := by
  rw [C5_amended [] w5Minus w5Plus (by decide)]
  rfl

/-- Inversion of a successful Except bind. -/
theorem bind_ok_inv {α β : Type} {x : Except PyErr α} {f : α → Except PyErr β}
    {out : β} (h : (x >>= f) = Except.ok out) :
    ∃ v, x = Except.ok v ∧ f v = Except.ok out := by
  cases x with
  | error e => exact absurd h (by simp [errBind])
  | ok v => exact ⟨v, rfl, h⟩

/-- Erasing keeps membership in the original list. -/
theorem pyErase_subset {α : Type} [DecidableEq α] {x a : α} :
    ∀ {l : List α}, x ∈ pyErase l a → x ∈ l := by
  intro l
  induction l with
  | nil => intro h; exact absurd h (by simp [pyErase])
  | cons y ys ih =>
    intro h
    unfold pyErase at h
    by_cases hy : y = a
    · rw [if_pos hy] at h
      exact List.mem_cons_of_mem y h
    · rw [if_neg hy] at h
      rcases List.mem_cons.mp h with h1 | h2
      · exact h1 ▸ List.mem_cons_self y ys
      · exact List.mem_cons_of_mem y (ih h2)

/-- A successful pyRemove returns the erased list. -/
theorem pyRemove_ok_inv {α : Type} [DecidableEq α] {l l' : List α} {a : α}
    (h : pyRemove l a = Except.ok l') : l' = pyErase l a := by
  unfold pyRemove at h
  by_cases hm : a ∈ l
  · rw [if_pos hm] at h
    exact (Except.ok.injEq _ _).mp h.symm
  · rw [if_neg hm] at h
    exact absurd h (by simp)

/-- A good extraction from a token-good marker line is nonempty. -/
theorem extractTok_good {l : Line} {t : Name} (hg : tokGoodLine l)
    (hm : containsSub MARKER l = true) (he : extractTok l = Except.ok t) :
    t ≠ [] := by
  intro hnil
  subst hnil
  unfold extractTok pyGet at he
  rcases hq : (pySplitOn '"' l).get? 1 with _ | v
  · rw [hq] at he
    exact absurd he (by simp)
  · rw [hq] at he
    have : v = [] := by
      have := (Except.ok.injEq v ([] : Name)).mp he
      exact this
    exact hg hm (this ▸ hq)

/-- Records built by positional pairing from token-good minus lines have a
nonempty old field. -/
theorem pairPositional_good :
    ∀ (m p : List Line) (prs : List ChangeRec),
      (∀ l ∈ m, tokGoodLine l) → pairPositional m p = Except.ok prs →
      ∀ r ∈ prs, r.1 ≠ [] := by
  intro m
  induction m with
  | nil =>
    intro p prs _ h r hr
    cases p with
    | nil =>
      cases h
      exact absurd hr (by simp)
    | cons y ys =>
      cases h
      exact absurd hr (by simp)
  | cons x xs ih =>
    intro p prs hg h r hr
    cases p with
    | nil =>
      cases h
      exact absurd hr (by simp)
    | cons y ys =>
      unfold pairPositional at h
      by_cases hc : containsSub MARKER x ∧ containsSub MARKER y
      · rw [if_pos hc] at h
        obtain ⟨tm, htm, h⟩ := bind_ok_inv h
        obtain ⟨tp, htp, h⟩ := bind_ok_inv h
        obtain ⟨rest, hrest, h⟩ := bind_ok_inv h
        have hout : prs = (tm, tp) :: rest := by
          have := (Except.ok.injEq ((tm, tp) :: rest) prs).mp h
          exact this.symm
        subst hout
        rcases List.mem_cons.mp hr with h1 | h2
        · subst h1
          exact extractTok_good (hg x (List.mem_cons_self x xs)) hc.1 htm
        · exact ih ys rest (fun l hl => hg l (List.mem_cons_of_mem x hl)) hrest r h2
      · rw [if_neg hc] at h
        exact ih ys prs (fun l hl => hg l (List.mem_cons_of_mem x hl)) h r hr

/-- Names extracted from token-good lines are nonempty. -/
theorem extractNames_good :
    ∀ (ls : List Line) (ts : List Name),
      (∀ l ∈ ls, tokGoodLine l) → extractNames ls = Except.ok ts →
      ∀ t ∈ ts, t ≠ [] := by
  intro ls
  induction ls with
  | nil =>
    intro ts _ h t ht
    cases h
    exact absurd ht (by simp)
  | cons x xs ih =>
    intro ts hg h t ht
    unfold extractNames at h
    by_cases hc : containsSub MARKER x = true
    · rw [if_pos hc] at h
      obtain ⟨tok, htok, h⟩ := bind_ok_inv h
      obtain ⟨rest, hrest, h⟩ := bind_ok_inv h
      have hout : ts = tok :: rest := by
        have := (Except.ok.injEq (tok :: rest) ts).mp h
        exact this.symm
      subst hout
      rcases List.mem_cons.mp ht with h1 | h2
      · subst h1
        exact extractTok_good (hg x (List.mem_cons_self x xs)) hc htok
      · exact ih rest (fun l hl => hg l (List.mem_cons_of_mem x hl)) hrest t h2
    · rw [if_neg hc] at h
      exact ih ts (fun l hl => hg l (List.mem_cons_of_mem x hl)) h t ht

/-- Greedy matching of nonempty names over a pool of nonempty names yields
records with a nonempty field. -/
theorem specGreedy_good :
    ∀ (R A : List Name), (∀ r ∈ R, r ≠ []) → (∀ t ∈ A, t ≠ []) →
      ∀ rec ∈ specGreedy R A, rec.1 ≠ [] ∨ rec.2 ≠ [] := by
  intro R
  induction R with
  | nil =>
    intro A _ hA rec hrec
    unfold specGreedy at hrec
    obtain ⟨t, ht, rfl⟩ := List.mem_map.mp hrec
    exact Or.inr (hA t ht)
  | cons r rs ih =>
    intro A hR hA rec hrec
    unfold specGreedy at hrec
    cases hm : getCloseMatches r A 1 GET_CLOSE_MATCHES_NONINTERACTIVE_CUTOFF with
    | nil =>
      rw [hm] at hrec
      rcases List.mem_cons.mp hrec with h1 | h2
      · subst h1
        exact Or.inl (hR r (List.mem_cons_self r rs))
      · exact ih A (fun x hx => hR x (List.mem_cons_of_mem r hx)) hA rec h2
    | cons c cs =>
      rw [hm] at hrec
      rcases List.mem_cons.mp hrec with h1 | h2
      · subst h1
        exact Or.inl (hR r (List.mem_cons_self r rs))
      · exact ih (pyErase A c) (fun x hx => hR x (List.mem_cons_of_mem r hx))
          (fun t ht => hA t (pyErase_subset ht)) rec h2

/-- Every record the hunk classifier appends to a good change list, from
token-good minus and plus lines, has a nonempty field. -/
theorem process_diff_lines_good (chg : List ChangeRec) (m p : List Line)
    (out : List ChangeRec)
    (hchg : ∀ r ∈ chg, r.1 ≠ [] ∨ r.2 ≠ [])
    (hm : ∀ l ∈ m, tokGoodLine l) (hp : ∀ l ∈ p, tokGoodLine l)
    (h : process_diff_lines chg m p = Except.ok out) :
    ∀ r ∈ out, r.1 ≠ [] ∨ r.2 ≠ [] := by
  unfold process_diff_lines at h
  by_cases h1 : m.length = p.length
  · rw [if_pos h1] at h
    obtain ⟨prs, hprs, h⟩ := bind_ok_inv h
    have hout : out = chg ++ prs := ((Except.ok.injEq _ _).mp h).symm
    subst hout
    intro r hr
    rcases List.mem_append.mp hr with hh | hh
    · exact hchg r hh
    · exact Or.inl (pairPositional_good m p prs hm hprs r hh)
  · rw [if_neg h1] at h
    by_cases h2 : m.length = 0
    · rw [if_pos h2] at h
      obtain ⟨adds, hadds, h⟩ := bind_ok_inv h
      have hout : out = chg ++ adds.map fun t => (([] : Name), t) :=
        ((Except.ok.injEq _ _).mp h).symm
      subst hout
      intro r hr
      rcases List.mem_append.mp hr with hh | hh
      · exact hchg r hh
      · obtain ⟨t, ht, rfl⟩ := List.mem_map.mp hh
        exact Or.inr (extractNames_good p adds hp hadds t ht)
    · rw [if_neg h2] at h
      by_cases h3 : p.length = 0
      · rw [if_pos h3] at h
        obtain ⟨dels, hdels, h⟩ := bind_ok_inv h
        have hout : out = chg ++ dels.map fun t => (t, ([] : Name)) :=
          ((Except.ok.injEq _ _).mp h).symm
        subst hout
        intro r hr
        rcases List.mem_append.mp hr with hh | hh
        · exact hchg r hh
        · obtain ⟨t, ht, rfl⟩ := List.mem_map.mp hh
          exact Or.inl (extractNames_good m dels hm hdels t ht)
      · rw [if_neg h3] at h
        obtain ⟨R, hR, h⟩ := bind_ok_inv h
        obtain ⟨A, hA, h⟩ := bind_ok_inv h
        obtain ⟨res, hres, h⟩ := bind_ok_inv h
        rw [greedyLoop_eq] at hres
        have hres' : greedyPure R A [] = res := (Except.ok.injEq _ _).mp hres
        have hout : out = chg ++ res.1 ++ res.2.map fun t => (([] : Name), t) :=
          ((Except.ok.injEq _ _).mp h).symm
        subst hout
        subst hres'
        intro r hr
        rcases List.mem_append.mp hr with hh | hh2
        · rcases List.mem_append.mp hh with hh1 | hh1
          · exact hchg r hh1
          · have : r ∈ specGreedy R A := by
              have hsp := greedyPure_spec R A []
              simp only [List.nil_append] at hsp
              rw [← hsp]
              exact List.mem_append.mpr (Or.inl hh1)
            exact specGreedy_good R A (extractNames_good m R hm hR)
              (extractNames_good p A hp hA) r this
        · have : r ∈ specGreedy R A := by
            have hsp := greedyPure_spec R A []
            simp only [List.nil_append] at hsp
            rw [← hsp]
            exact List.mem_append.mpr (Or.inr hh2)
          exact specGreedy_good R A (extractNames_good m R hm hR)
            (extractNames_good p A hp hA) r this

/-- The diff dispatch loop preserves goodness of the record list and of
the gathered minus and plus lines. -/
theorem classifyLoop_good :
    ∀ (lines : List Line) (chg : List ChangeRec) (minus plus : List Line)
      (st : List ChangeRec × List Line × List Line),
      (∀ r ∈ chg, r.1 ≠ [] ∨ r.2 ≠ []) →
      (∀ l ∈ minus, tokGoodLine l) → (∀ l ∈ plus, tokGoodLine l) →
      (∀ l ∈ lines, tokGoodLine (pyLower l)) →
      classifyLoop lines chg minus plus = Except.ok st →
      (∀ r ∈ st.1, r.1 ≠ [] ∨ r.2 ≠ []) ∧ (∀ l ∈ st.2.1, tokGoodLine l) ∧
        (∀ l ∈ st.2.2, tokGoodLine l) := by
  intro lines
  induction lines with
  | nil =>
    intro chg minus plus st hchg hm hp _ h
    cases h
    exact ⟨hchg, hm, hp⟩
  | cons l rest ih =>
    intro chg minus plus st hchg hm hp hl h
    have hlhead : tokGoodLine (pyLower l) := hl l (List.mem_cons_self l rest)
    have hltail : ∀ x ∈ rest, tokGoodLine (pyLower x) :=
      fun x hx => hl x (List.mem_cons_of_mem l hx)
    unfold classifyLoop at h
    by_cases hat : containsSub "@@".data (pyLower l) = true
    · rw [if_pos hat] at h
      obtain ⟨chg', hchg', h⟩ := bind_ok_inv h
      exact ih chg' [] [] st
        (process_diff_lines_good chg minus plus chg' hchg hm hp hchg')
        (by simp) (by simp) hltail h
    · rw [if_neg hat] at h
      cases hpl : pyLower l with
      | nil =>
        rw [hpl] at h
        exact absurd h (by simp)
      | cons c cs =>
        rw [hpl] at h
        rw [hpl] at hlhead
        have h2 : (if c = '-' then classifyLoop rest chg (minus ++ [c :: cs]) plus
            else if c = '+' then classifyLoop rest chg minus (plus ++ [c :: cs])
            else classifyLoop rest chg minus plus) = Except.ok st := h
        clear h
        by_cases hminus : c = '-'
        · rw [if_pos hminus] at h2
          refine ih chg (minus ++ [c :: cs]) plus st hchg ?_ hp hltail h2
          intro x hx
          rcases List.mem_append.mp hx with h1 | h1
          · exact hm x h1
          · have : x = c :: cs := by simpa using h1
            exact this ▸ hlhead
        · rw [if_neg hminus] at h2
          by_cases hplus : c = '+'
          · rw [if_pos hplus] at h2
            refine ih chg minus (plus ++ [c :: cs]) st hchg hm ?_ hltail h2
            intro x hx
            rcases List.mem_append.mp hx with h1 | h1
            · exact hp x h1
            · have : x = c :: cs := by simpa using h1
              exact this ▸ hlhead
          · rw [if_neg hplus] at h2
            exact ih chg minus plus st hchg hm hp hltail h2

/-- Pure-addition values are nonempty names. -/
theorem mem_newNames {c : Name} {L : List ChangeRec} (h : c ∈ newNames L) :
    c ≠ [] := by
  unfold newNames at h
  obtain ⟨r, hr, rfl⟩ := List.mem_map.mp h
  have h2 := (List.mem_filter.mp hr).2
  intro hnil
  rw [hnil] at h2
  simp at h2

/-- Rename records have both fields nonempty. -/
theorem mem_renameRecs {r : ChangeRec} {L : List ChangeRec}
    (h : r ∈ renameRecs L) : r.1 ≠ [] ∧ r.2 ≠ [] := by
  unfold renameRecs at h
  have h2 := (List.mem_filter.mp h).2
  constructor <;> intro hnil <;> rw [hnil] at h2 <;> simp at h2

/-- Pure-removal sources are nonempty names. -/
theorem mem_deletedNames {d : Name} {L : List ChangeRec}
    (h : d ∈ deletedNames L) : d ≠ [] := by
  unfold deletedNames at h
  obtain ⟨r, hr, rfl⟩ := List.mem_map.mp h
  have h2 := (List.mem_filter.mp hr).2
  intro hnil
  rw [hnil] at h2
  simp at h2

/-- One iteration of sweep 1 preserves goodness of the record list, under
the no-shared-target hypothesis on the snapshots: the conflict branch
cannot fire, and the clean branch only appends records built from the
nonempty fields of the rename and the candidate. -/
theorem sweep1Step_good {L : List ChangeRec} (hshare : noSharedTarget L)
    {cur cur' : List ChangeRec} {r : ChangeRec}
    (hr1 : r.1 ≠ []) (hr2 : r.2 ≠ [])
    (hcur : ∀ x ∈ cur, x.1 ≠ [] ∨ x.2 ≠ [])
    (h : sweep1Step ((renameRecs L).map (·.2)) (newNames L) cur r = Except.ok cur') :
    ∀ x ∈ cur', x.1 ≠ [] ∨ x.2 ≠ [] := by
  unfold sweep1Step at h
  cases hm : getCloseMatches r.1 (newNames L) 1 GET_CLOSE_MATCHES_SECOND_PASS_CUTOFF with
  | nil =>
    rw [hm] at h
    cases h
    exact hcur
  | cons c cs =>
    rw [hm] at h
    have hcA : c ∈ newNames L := getCloseMatches_subset (hm ▸ List.mem_cons_self c cs)
    have hcne : c ∉ (renameRecs L).map (·.2) := hshare c hcA
    obtain ⟨mo, hmo, h⟩ := bind_ok_inv h
    by_cases hmoc : mo = c
    · rw [if_pos hmoc, if_neg hcne] at h
      obtain ⟨cur2, hcur2, h⟩ := bind_ok_inv h
      have hc2 : cur2 = pyErase cur r := pyRemove_ok_inv hcur2
      have hout : cur' = cur2 ++ [(([] : Name), r.2), (r.1, c)] :=
        ((Except.ok.injEq _ _).mp h).symm
      subst hout
      subst hc2
      intro x hx
      rcases List.mem_append.mp hx with h1 | h1
      · exact hcur x (pyErase_subset h1)
      · rcases List.mem_cons.mp h1 with h2 | h2
        · subst h2
          exact Or.inr hr2
        · have h3 : x = (r.1, c) := by simpa using h2
          subst h3
          exact Or.inl hr1
    · rw [if_neg hmoc] at h
      cases h
      exact hcur

/-- The fold of sweep 1 preserves goodness. -/
theorem sweep1_fold_good {L : List ChangeRec} (hshare : noSharedTarget L) :
    ∀ (reps : List ChangeRec) (cur out : List ChangeRec),
      (∀ r ∈ reps, r.1 ≠ [] ∧ r.2 ≠ []) →
      (∀ x ∈ cur, x.1 ≠ [] ∨ x.2 ≠ []) →
      List.foldlM (sweep1Step ((renameRecs L).map (·.2)) (newNames L)) cur reps =
        Except.ok out →
      ∀ x ∈ out, x.1 ≠ [] ∨ x.2 ≠ [] := by
  intro reps
  induction reps with
  | nil =>
    intro cur out _ hcur h
    cases h
    exact hcur
  | cons r rs ih =>
    intro cur out hreps hcur h
    rw [List.foldlM_cons] at h
    obtain ⟨cur', hstep, h⟩ := bind_ok_inv h
    have hr := hreps r (List.mem_cons_self r rs)
    exact ih cur' out (fun x hx => hreps x (List.mem_cons_of_mem r hx))
      (sweep1Step_good hshare hr.1 hr.2 hcur hstep) h

/-- Sweep 1 preserves goodness of the change list when no name is both a
pure-addition value and a rename target. -/
theorem sweep1_good {L out : List ChangeRec}
    (hgood : ∀ r ∈ L, r.1 ≠ [] ∨ r.2 ≠ []) (hshare : noSharedTarget L)
    (h : sweep1 L = Except.ok out) : ∀ r ∈ out, r.1 ≠ [] ∨ r.2 ≠ [] := by
  unfold sweep1 at h
  exact sweep1_fold_good hshare (renameRecs L) L out
    (fun r hr => mem_renameRecs hr) hgood h

/-- One iteration of sweep 2 preserves goodness: the conflict branch
either raises or leaves the list unchanged, and the clean branch inserts a
rename whose old field is the nonempty removed name. -/
theorem sweep2Step_good {repsNew news : List Name} {cur cur' : List ChangeRec}
    {d : Name} (hd : d ≠ [])
    (hcur : ∀ x ∈ cur, x.1 ≠ [] ∨ x.2 ≠ [])
    (h : sweep2Step repsNew news cur d = Except.ok cur') :
    ∀ x ∈ cur', x.1 ≠ [] ∨ x.2 ≠ [] := by
  unfold sweep2Step at h
  cases hm : getCloseMatches (d.take 1) news 1 GET_CLOSE_MATCHES_SECOND_PASS_CUTOFF with
  | nil =>
    rw [hm] at h
    cases h
    exact hcur
  | cons c cs =>
    rw [hm] at h
    have hif : (if c ∈ repsNew then do
          let orig ← pyGet ((cur.filter fun x => x.2 == c).map (·.1)) 0
          let mo ← pyGet (getCloseMatches c [d.take 1, orig] 2 (0, 1)) 0
          if mo = d.take 1 then
            Except.error "ValueError: list.remove(x): x not in list"
          else pure cur
        else do
          let cur ← pyRemove cur (d, ([] : Name))
          let cur ← pyRemove cur (([] : Name), c)
          pure (cur ++ [(d, c)])) = Except.ok cur' := h
    clear h
    by_cases hrep : c ∈ repsNew
    · rw [if_pos hrep] at hif
      obtain ⟨orig, horig, h⟩ := bind_ok_inv hif
      obtain ⟨mo, hmo, h⟩ := bind_ok_inv h
      by_cases hmoc : mo = d.take 1
      · rw [if_pos hmoc] at h
        exact absurd h (by simp)
      · rw [if_neg hmoc] at h
        cases h
        exact hcur
    · rw [if_neg hrep] at hif
      obtain ⟨cur2, h2, h⟩ := bind_ok_inv hif
      obtain ⟨cur3, h3, h⟩ := bind_ok_inv h
      have hc2 : cur2 = pyErase cur (d, ([] : Name)) := pyRemove_ok_inv h2
      have hc3 : cur3 = pyErase cur2 (([] : Name), c) := pyRemove_ok_inv h3
      have hout : cur' = cur3 ++ [(d, c)] := ((Except.ok.injEq _ _).mp h).symm
      subst hout
      subst hc3
      subst hc2
      intro x hx
      rcases List.mem_append.mp hx with h1 | h1
      · exact hcur x (pyErase_subset (pyErase_subset h1))
      · have h3 : x = (d, c) := by simpa using h1
        subst h3
        exact Or.inl hd

/-- The fold of sweep 2 preserves goodness. -/
theorem sweep2_fold_good {repsNew news : List Name} :
    ∀ (dels : List Name) (cur out : List ChangeRec),
      (∀ d ∈ dels, d ≠ []) →
      (∀ x ∈ cur, x.1 ≠ [] ∨ x.2 ≠ []) →
      List.foldlM (sweep2Step repsNew news) cur dels = Except.ok out →
      ∀ x ∈ out, x.1 ≠ [] ∨ x.2 ≠ [] := by
  intro dels
  induction dels with
  | nil =>
    intro cur out _ hcur h
    cases h
    exact hcur
  | cons d ds ih =>
    intro cur out hdels hcur h
    rw [List.foldlM_cons] at h
    obtain ⟨cur', hstep, h⟩ := bind_ok_inv h
    exact ih cur' out (fun x hx => hdels x (List.mem_cons_of_mem d hx))
      (sweep2Step_good (hdels d (List.mem_cons_self d ds)) hcur hstep) h

/-- Sweep 2 preserves goodness of the change list. -/
theorem sweep2_good {L out : List ChangeRec}
    (hgood : ∀ r ∈ L, r.1 ≠ [] ∨ r.2 ≠ [])
    (h : sweep2 L = Except.ok out) : ∀ r ∈ out, r.1 ≠ [] ∨ r.2 ≠ [] := by
  unfold sweep2 at h
  exact sweep2_fold_good (deletedNames L) L out
    (fun d hd => mem_deletedNames hd) hgood h

/-- Both reconciliation sweeps preserve goodness under the
no-shared-target hypothesis on the input list. -/
theorem globalReconcile_good {L out : List ChangeRec}
    (hgood : ∀ r ∈ L, r.1 ≠ [] ∨ r.2 ≠ []) (hshare : noSharedTarget L)
    (h : globalReconcile L = Except.ok out) :
    ∀ r ∈ out, r.1 ≠ [] ∨ r.2 ≠ [] := by
  unfold globalReconcile at h
  obtain ⟨mid, h1, h2⟩ := bind_ok_inv h
  exact sweep2_good (sweep1_good hgood hshare h1) h2

/-- Claim C3 as amended: every record of the final change list has at
least one nonempty field, provided (i) every declaration line of the diff
output carries a nonempty quoted token (the counterexample shows an empty
token produces the record with both fields empty) and (ii) no name of the
tentative list is both a pure-addition value and a rename target (the
sweep-1 conflict branch can otherwise reinstate an empty source as a
record with both fields empty). -/
theorem C3_amended (a b : List Line) (ff tf : Line)
    (out : List ChangeRec × Nat × Nat × Nat)
    (hline : ∀ l ∈ pyUnifiedDiff a b ff tf, tokGoodLine (pyLower l))
    (hshare : ∀ T, tentativeOf a b ff tf = Except.ok T → noSharedTarget T)
    (hok : find_changed_vars a b ff tf = Except.ok out) :
    ∀ r ∈ out.1, r.1 ≠ [] ∨ r.2 ≠ [] := by
  unfold find_changed_vars at hok
  obtain ⟨T, hT, hok⟩ := bind_ok_inv hok
  obtain ⟨G, hG, hok⟩ := bind_ok_inv hok
  have hout : out = (G, nReplacements G, nAdds G, nRemovals G) :=
    ((Except.ok.injEq _ _).mp hok).symm
  subst hout
  have hTgood : ∀ r ∈ T, r.1 ≠ [] ∨ r.2 ≠ [] := by
    unfold tentativeOf at hT
    obtain ⟨st, hst, hT⟩ := bind_ok_inv hT
    have hcl := classifyLoop_good (pyUnifiedDiff a b ff tf) [] [] [] st
      (by simp) (by simp) (by simp) hline hst
    exact process_diff_lines_good st.1 st.2.1 st.2.2 T hcl.1 hcl.2.1 hcl.2.2 hT
  exact globalReconcile_good hTgood (hshare T hT) hG

/-- Witness for the amended claim C3 on the in-place rename of foo_bar to
foo_baz: the hypotheses hold by computation and the final record has a
nonempty old field. -/
theorem C3_amended_witness :
    ("foo_bar".data : Name) ≠ [] ∨ ("foo_baz".data : Name) ≠ [] :=
  C3_amended w3OldText w3NewText "old_file".data "new_file".data
    ([("foo_bar".data, "foo_baz".data)], 1, 0, 0)
    (by decide)
    (fun T hT => by
      rw [show tentativeOf w3OldText w3NewText "old_file".data "new_file".data =
        Except.ok [("foo_bar".data, "foo_baz".data)] from rfl] at hT
      cases hT
      decide)
    rfl ("foo_bar".data, "foo_baz".data) (by decide)

section SeqMatchLemmas

variable {α : Type} [DecidableEq α]

/-- The run length never exceeds the fuel. -/
theorem runLenAux_le (a b : List α) (pop : α → Bool) (bhi : Nat) :
    ∀ (fuel i j : Nat), runLenAux a b pop bhi fuel i j ≤ fuel := by
  intro fuel
  induction fuel with
  | zero => intro i j; exact Nat.le_refl 0
  | succ n ih =>
    intro i j
    unfold runLenAux
    split
    · split
      · split
        · exact Nat.succ_le_succ (ih (i + 1) (j + 1))
        · exact Nat.zero_le _
      · exact Nat.zero_le _
    · exact Nat.zero_le _

/-- The run length never exceeds the distance to the b bound. -/
theorem runLenAux_le_b (a b : List α) (pop : α → Bool) (bhi : Nat) :
    ∀ (fuel i j : Nat), runLenAux a b pop bhi fuel i j ≤ bhi - j := by
  intro fuel
  induction fuel with
  | zero => intro i j; simp [runLenAux]
  | succ n ih =>
    intro i j
    unfold runLenAux
    split
    next hj =>
      split
      · split
        · have := ih (i + 1) (j + 1)
          omega
        · omega
      · omega
    next hj => omega

/-- Elements inside a run agree pointwise. -/
theorem runLenAux_valid (a b : List α) (pop : α → Bool) (bhi : Nat) :
    ∀ (fuel i j m : Nat), m < runLenAux a b pop bhi fuel i j →
      ∃ x, a.get? (i + m) = some x ∧ b.get? (j + m) = some x := by
  intro fuel
  induction fuel with
  | zero =>
    intro i j m hm
    exact absurd hm (by simp [runLenAux])
  | succ n ih =>
    intro i j m hm
    unfold runLenAux at hm
    split at hm
    · split at hm
      next x y ha hb =>
        split at hm
        next hxy =>
          cases m with
          | zero => exact ⟨x, by simpa using ha, by simpa [hxy.1] using hb⟩
          | succ m' =>
            obtain ⟨z, hz1, hz2⟩ := ih (i + 1) (j + 1) m' (Nat.lt_of_succ_lt_succ hm)
            exact ⟨z, by rw [show i + (m' + 1) = i + 1 + m' by omega]; exact hz1,
              by rw [show j + (m' + 1) = j + 1 + m' by omega]; exact hz2⟩
        next hxy => exact absurd hm (Nat.not_lt_zero m)
      next ha hb => exact absurd hm (Nat.not_lt_zero m)
    · exact absurd hm (Nat.not_lt_zero m)

/-- Bounds and validity of the block search core. -/
theorem flmCore_spec (a b : List α) (pop : α → Bool) (alo ahi blo bhi : Nat)
    (hab : alo ≤ ahi) (hbb : blo ≤ bhi) :
    alo ≤ (flmCore a b pop alo ahi blo bhi).1 ∧
    (flmCore a b pop alo ahi blo bhi).1 + (flmCore a b pop alo ahi blo bhi).2.2 ≤ ahi ∧
    blo ≤ (flmCore a b pop alo ahi blo bhi).2.1 ∧
    (flmCore a b pop alo ahi blo bhi).2.1 + (flmCore a b pop alo ahi blo bhi).2.2 ≤ bhi ∧
    ValidBlock a b (flmCore a b pop alo ahi blo bhi) := by
  unfold flmCore
  have inv : ∀ (cands : List (Nat × Nat)) (init : Nat × Nat × Nat),
      (∀ ij ∈ cands, alo ≤ ij.1 ∧ ij.1 < ahi ∧ blo ≤ ij.2 ∧ ij.2 < bhi) →
      (alo ≤ init.1 ∧ init.1 + init.2.2 ≤ ahi ∧ blo ≤ init.2.1 ∧
        init.2.1 + init.2.2 ≤ bhi ∧ ValidBlock a b init) →
      (fun best => alo ≤ best.1 ∧ best.1 + best.2.2 ≤ ahi ∧ blo ≤ best.2.1 ∧
        best.2.1 + best.2.2 ≤ bhi ∧ ValidBlock a b best)
        (cands.foldl (fun best ij =>
          let k := runLen a b pop ahi bhi ij.1 ij.2
          if k > best.2.2 then (ij.1, ij.2, k) else best) init) := by
    intro cands
    induction cands with
    | nil => intro init _ hinit; exact hinit
    | cons ij rest ih =>
      intro init hcands hinit
      rw [List.foldl_cons]
      refine ih _ (fun x hx => hcands x (List.mem_cons_of_mem ij hx)) ?_
      have hij := hcands ij (List.mem_cons_self ij rest)
      by_cases hgt : runLen a b pop ahi bhi ij.1 ij.2 > init.2.2
      · simp only [hgt, if_pos]
        refine ⟨hij.1, ?_, hij.2.2.1, ?_, ?_⟩
        · have h1 := runLenAux_le a b pop bhi (ahi - ij.1) ij.1 ij.2
          unfold runLen
          omega
        · have h1 := runLenAux_le_b a b pop bhi (ahi - ij.1) ij.1 ij.2
          unfold runLen
          omega
        · intro m hm
          exact runLenAux_valid a b pop bhi _ ij.1 ij.2 m hm
      · simp only [hgt, if_neg, if_false]
        simpa using hinit
  refine inv (blockCandidates alo ahi blo bhi) (alo, blo, 0) ?_ ?_
  · intro ij hij
    unfold blockCandidates at hij
    obtain ⟨i, hi, hj⟩ := List.mem_flatMap.mp hij
    obtain ⟨j, hj2, rfl⟩ := List.mem_map.mp hj
    have hi2 := List.mem_range'_1.mp hi
    have hj3 := List.mem_range'_1.mp hj2
    exact ⟨hi2.1, by omega, hj3.1, by omega⟩
  · refine ⟨Nat.le_refl alo, by simpa using hab, Nat.le_refl blo, by simpa using hbb, ?_⟩
    intro m hm
    exact absurd (by simpa using hm) (Nat.not_lt_zero m)


/-- The leftward extension keeps the block valid, keeps both ends fixed
and stays inside the lower bounds. -/
theorem extendLeft_spec (a b : List α) (alo blo : Nat) :
    ∀ (besti bestj bestsize : Nat),
      alo ≤ besti → blo ≤ bestj →
      ValidBlock a b (besti, bestj, bestsize) →
      alo ≤ (extendLeft a b alo blo besti bestj bestsize).1 ∧
      blo ≤ (extendLeft a b alo blo besti bestj bestsize).2.1 ∧
      (extendLeft a b alo blo besti bestj bestsize).1 +
        (extendLeft a b alo blo besti bestj bestsize).2.2 = besti + bestsize ∧
      (extendLeft a b alo blo besti bestj bestsize).2.1 +
        (extendLeft a b alo blo besti bestj bestsize).2.2 = bestj + bestsize ∧
      ValidBlock a b (extendLeft a b alo blo besti bestj bestsize) := by
  intro besti
  induction besti with
  | zero =>
    intro bestj bestsize h1 h2 hv
    exact ⟨h1, h2, rfl, rfl, hv⟩
  | succ n ih =>
    intro bestj bestsize h1 h2 hv
    unfold extendLeft
    split
    next hg =>
      split
      next x y hx hy =>
        split
        next hxy =>
          have hbj : 1 ≤ bestj := Nat.lt_of_le_of_lt (Nat.zero_le blo) hg.2
          have hv' : ValidBlock a b (n, bestj - 1, bestsize + 1) := by
            intro m hm
            have hm2 : m < bestsize + 1 := hm
            cases m with
            | zero =>
              refine ⟨x, by simpa using hx, ?_⟩
              show b.get? (bestj - 1 + 0) = some x
              rw [show bestj - 1 + 0 = bestj - 1 by omega, hy, hxy]
            | succ m' =>
              have hm3 : m' < bestsize := by omega
              obtain ⟨z, hz1, hz2⟩ := hv m' hm3
              have hz1' : a.get? (n + 1 + m') = some z := hz1
              have hz2' : b.get? (bestj + m') = some z := hz2
              refine ⟨z, ?_, ?_⟩
              · show a.get? (n + (m' + 1)) = some z
                rw [show n + (m' + 1) = n + 1 + m' by omega]
                exact hz1'
              · show b.get? (bestj - 1 + (m' + 1)) = some z
                rw [show bestj - 1 + (m' + 1) = bestj + m' by omega]
                exact hz2'
          have hrec := ih (bestj - 1) (bestsize + 1) (Nat.lt_succ_iff.mp hg.1)
            (by omega) hv'
          refine ⟨hrec.1, hrec.2.1, ?_, ?_, hrec.2.2.2.2⟩
          · rw [hrec.2.2.1]
            omega
          · rw [hrec.2.2.2.1]
            omega
        next => exact ⟨h1, h2, rfl, rfl, hv⟩
      next => exact ⟨h1, h2, rfl, rfl, hv⟩
    next => exact ⟨h1, h2, rfl, rfl, hv⟩

/-- The rightward extension keeps the block start fixed, keeps the block
valid, and respects both upper bounds. -/
theorem extendRightAux_spec (a b : List α) (bhi : Nat) :
    ∀ (fuel besti bestj bestsize : Nat),
      bestj + bestsize ≤ bhi →
      ValidBlock a b (besti, bestj, bestsize) →
      (extendRightAux a b bhi fuel besti bestj bestsize).1 = besti ∧
      (extendRightAux a b bhi fuel besti bestj bestsize).2.1 = bestj ∧
      (extendRightAux a b bhi fuel besti bestj bestsize).2.2 ≤ bestsize + fuel ∧
      bestj + (extendRightAux a b bhi fuel besti bestj bestsize).2.2 ≤ bhi ∧
      ValidBlock a b (extendRightAux a b bhi fuel besti bestj bestsize) := by
  intro fuel
  induction fuel with
  | zero =>
    intro besti bestj bestsize hb hv
    exact ⟨rfl, rfl, Nat.le_refl _, hb, hv⟩
  | succ n ih =>
    intro besti bestj bestsize hb hv
    unfold extendRightAux
    split
    next hg =>
      split
      next x y hx hy =>
        split
        next hxy =>
          have hv' : ValidBlock a b (besti, bestj, bestsize + 1) := by
            intro m hm
            have hm2 : m < bestsize + 1 := hm
            by_cases hm' : m < bestsize
            · exact hv m hm'
            · have hmeq : m = bestsize := by omega
              refine ⟨x, ?_, ?_⟩
              · show a.get? (besti + m) = some x
                rw [hmeq]
                exact hx
              · show b.get? (bestj + m) = some x
                rw [hmeq, hy, hxy]
          have hrec := ih besti bestj (bestsize + 1) (by omega) hv'
          refine ⟨hrec.1, hrec.2.1, ?_, hrec.2.2.2.1, hrec.2.2.2.2⟩
          have h3 := hrec.2.2.1
          omega
        next => exact ⟨rfl, rfl, Nat.le_add_right _ _, hb, hv⟩
      next => exact ⟨rfl, rfl, Nat.le_add_right _ _, hb, hv⟩
    next => exact ⟨rfl, rfl, Nat.le_add_right _ _, hb, hv⟩

/-- The longest-match search returns a valid block inside the window. -/
theorem findLongestMatch_spec (a b : List α) (pop : α → Bool)
    (alo ahi blo bhi : Nat) (hab : alo ≤ ahi) (hbb : blo ≤ bhi) :
    alo ≤ (findLongestMatch a b pop alo ahi blo bhi).1 ∧
    blo ≤ (findLongestMatch a b pop alo ahi blo bhi).2.1 ∧
    (findLongestMatch a b pop alo ahi blo bhi).1 +
      (findLongestMatch a b pop alo ahi blo bhi).2.2 ≤ ahi ∧
    (findLongestMatch a b pop alo ahi blo bhi).2.1 +
      (findLongestMatch a b pop alo ahi blo bhi).2.2 ≤ bhi ∧
    ValidBlock a b (findLongestMatch a b pop alo ahi blo bhi) := by
  obtain ⟨c1, c2, c3, c4, c5⟩ := flmCore_spec a b pop alo ahi blo bhi hab hbb
  obtain ⟨e1, e2, e3, e4, e5⟩ := extendLeft_spec a b alo blo
    (flmCore a b pop alo ahi blo bhi).1 (flmCore a b pop alo ahi blo bhi).2.1
    (flmCore a b pop alo ahi blo bhi).2.2 c1 c3 c5
  obtain ⟨r1, r2, r3, r4, r5⟩ := extendRightAux_spec a b bhi
    (ahi - ((extendLeft a b alo blo (flmCore a b pop alo ahi blo bhi).1
        (flmCore a b pop alo ahi blo bhi).2.1 (flmCore a b pop alo ahi blo bhi).2.2).1 +
      (extendLeft a b alo blo (flmCore a b pop alo ahi blo bhi).1
        (flmCore a b pop alo ahi blo bhi).2.1 (flmCore a b pop alo ahi blo bhi).2.2).2.2))
    (extendLeft a b alo blo (flmCore a b pop alo ahi blo bhi).1
      (flmCore a b pop alo ahi blo bhi).2.1 (flmCore a b pop alo ahi blo bhi).2.2).1
    (extendLeft a b alo blo (flmCore a b pop alo ahi blo bhi).1
      (flmCore a b pop alo ahi blo bhi).2.1 (flmCore a b pop alo ahi blo bhi).2.2).2.1
    (extendLeft a b alo blo (flmCore a b pop alo ahi blo bhi).1
      (flmCore a b pop alo ahi blo bhi).2.1 (flmCore a b pop alo ahi blo bhi).2.2).2.2
    (by omega) e5
  have hres : findLongestMatch a b pop alo ahi blo bhi =
      extendRightAux a b bhi
        (ahi - ((extendLeft a b alo blo (flmCore a b pop alo ahi blo bhi).1
            (flmCore a b pop alo ahi blo bhi).2.1 (flmCore a b pop alo ahi blo bhi).2.2).1 +
          (extendLeft a b alo blo (flmCore a b pop alo ahi blo bhi).1
            (flmCore a b pop alo ahi blo bhi).2.1 (flmCore a b pop alo ahi blo bhi).2.2).2.2))
        (extendLeft a b alo blo (flmCore a b pop alo ahi blo bhi).1
          (flmCore a b pop alo ahi blo bhi).2.1 (flmCore a b pop alo ahi blo bhi).2.2).1
        (extendLeft a b alo blo (flmCore a b pop alo ahi blo bhi).1
          (flmCore a b pop alo ahi blo bhi).2.1 (flmCore a b pop alo ahi blo bhi).2.2).2.1
        (extendLeft a b alo blo (flmCore a b pop alo ahi blo bhi).1
          (flmCore a b pop alo ahi blo bhi).2.1 (flmCore a b pop alo ahi blo bhi).2.2).2.2 := rfl
  rw [hres]
  exact ⟨by omega, by omega, by omega, by omega, r5⟩

/-- A chained block list stays chained from any smaller starting cursor. -/
theorem ChainBound_mono {lo2 lo hi : Nat} (h : lo2 ≤ lo) :
    ∀ (blocks : List (Nat × Nat × Nat)), ChainBound lo hi blocks → ChainBound lo2 hi blocks := by
  intro blocks hb
  cases blocks with
  | nil => exact le_trans h hb
  | cons bl rest => exact ⟨le_trans h hb.1, hb.2⟩

/-- Chained block lists concatenate across a middle cursor. -/
theorem ChainBound_append {lo mid hi : Nat} :
    ∀ (xs ys : List (Nat × Nat × Nat)),
      ChainBound lo mid xs → ChainBound mid hi ys → ChainBound lo hi (xs ++ ys) := by
  intro xs
  induction xs generalizing lo with
  | nil => intro ys h1 h2; exact ChainBound_mono h1 ys h2
  | cons bl rest ih => intro ys h1 h2; exact ⟨h1.1, ih ys h1.2 h2⟩

/-- The final cursor of a concatenation is the final cursor of the second
part started at the final cursor of the first. -/
theorem finalA_append :
    ∀ (xs ys : List (Nat × Nat × Nat)) (i : Nat),
      finalA i (xs ++ ys) = finalA (finalA i xs) ys := by
  intro xs
  induction xs with
  | nil => intro ys i; rfl
  | cons bl rest ih => intro ys i; exact ih ys (bl.1 + bl.2.2)

/-- The recursion of get_matching_blocks yields blocks chained inside the
window, and every block is valid. -/
theorem matchingBlocksAux_spec (a b : List α) (pop : α → Bool) :
    ∀ (fuel alo ahi blo bhi : Nat), alo ≤ ahi → blo ≤ bhi →
      ChainBound alo ahi (matchingBlocksAux a b pop fuel alo ahi blo bhi) ∧
      ∀ bl ∈ matchingBlocksAux a b pop fuel alo ahi blo bhi, ValidBlock a b bl := by
  intro fuel
  induction fuel with
  | zero =>
    intro alo ahi blo bhi h1 h2
    exact ⟨h1, by intro bl hbl; cases hbl⟩
  | succ n ih =>
    intro alo ahi blo bhi h1 h2
    simp only [matchingBlocksAux]
    obtain ⟨f1, f2, f3, f4, f5⟩ := findLongestMatch_spec a b pop alo ahi blo bhi h1 h2
    split
    next hk => exact ⟨h1, by intro bl hbl; cases hbl⟩
    next hk =>
      obtain ⟨cl, vl⟩ := ih alo (findLongestMatch a b pop alo ahi blo bhi).1
        blo (findLongestMatch a b pop alo ahi blo bhi).2.1 f1 f2
      obtain ⟨cr, vr⟩ := ih
        ((findLongestMatch a b pop alo ahi blo bhi).1 +
          (findLongestMatch a b pop alo ahi blo bhi).2.2) ahi
        ((findLongestMatch a b pop alo ahi blo bhi).2.1 +
          (findLongestMatch a b pop alo ahi blo bhi).2.2) bhi f3 f4
      constructor
      · rw [List.append_assoc]
        exact ChainBound_append _ _ cl ⟨Nat.le_refl _, cr⟩
      · intro bl hbl
        rcases List.mem_append.mp hbl with hbl2 | hr
        · rcases List.mem_append.mp hbl2 with hl | hmid
          · exact vl bl hl
          · obtain rfl := List.mem_singleton.mp hmid
            exact f5
        · exact vr bl hr

/-- The merge loop keeps the block list chained. -/
theorem mergeRun_chain :
    ∀ (blocks : List (Nat × Nat × Nat)) (cur : Nat × Nat × Nat) (lo hi : Nat),
      lo ≤ cur.1 → ChainBound (cur.1 + cur.2.2) hi blocks →
      ChainBound lo hi (mergeRun cur blocks) := by
  intro blocks
  induction blocks with
  | nil =>
    intro cur lo hi h1 h2
    unfold mergeRun
    split
    next => exact ⟨h1, h2⟩
    next => exact le_trans h1 (le_trans (Nat.le_add_right _ _) h2)
  | cons bl rest ih =>
    intro cur lo hi h1 h2
    unfold mergeRun
    split
    next hadj =>
      obtain ⟨ha1, ha2⟩ := hadj
      apply ih (cur.1, cur.2.1, cur.2.2 + bl.2.2) lo hi h1
      show ChainBound (cur.1 + (cur.2.2 + bl.2.2)) hi rest
      rw [show cur.1 + (cur.2.2 + bl.2.2) = bl.1 + bl.2.2 from by omega]
      exact h2.2
    next hnadj =>
      have hrec := ih bl (cur.1 + cur.2.2) hi h2.1 h2.2
      split
      next => exact ⟨h1, hrec⟩
      next => exact ChainBound_mono (le_trans h1 (Nat.le_add_right _ _)) _ hrec

/-- The merge loop keeps every block valid. -/
theorem mergeRun_valid (a b : List α) :
    ∀ (blocks : List (Nat × Nat × Nat)) (cur : Nat × Nat × Nat),
      ValidBlock a b cur → (∀ bl ∈ blocks, ValidBlock a b bl) →
      ∀ x ∈ mergeRun cur blocks, ValidBlock a b x := by
  intro blocks
  induction blocks with
  | nil =>
    intro cur hc _ x hx
    unfold mergeRun at hx
    split at hx
    next => obtain rfl := List.mem_singleton.mp hx; exact hc
    next => cases hx
  | cons bl rest ih =>
    intro cur hc hall x hx
    unfold mergeRun at hx
    split at hx
    next hadj =>
      obtain ⟨ha1, ha2⟩ := hadj
      refine ih (cur.1, cur.2.1, cur.2.2 + bl.2.2) ?_
        (fun y hy => hall y (List.mem_cons_of_mem bl hy)) x hx
      intro m hm
      have hm2 : m < cur.2.2 + bl.2.2 := hm
      by_cases hmc : m < cur.2.2
      · exact hc m hmc
      · have hbl := hall bl (List.mem_cons_self bl rest)
        obtain ⟨z, hz1, hz2⟩ := hbl (m - cur.2.2) (by omega)
        refine ⟨z, ?_, ?_⟩
        · show a.get? (cur.1 + m) = some z
          rw [show cur.1 + m = bl.1 + (m - cur.2.2) from by omega]
          exact hz1
        · show b.get? (cur.2.1 + m) = some z
          rw [show cur.2.1 + m = bl.2.1 + (m - cur.2.2) from by omega]
          exact hz2
    next hnadj =>
      rcases List.mem_append.mp hx with h1 | h2
      · split at h1
        next => obtain rfl := List.mem_singleton.mp h1; exact hc
        next => cases h1
      · exact ih bl (hall bl (List.mem_cons_self bl rest))
          (fun y hy => hall y (List.mem_cons_of_mem bl hy)) x h2

/-- The matching blocks of a pair of sequences are chained inside the
a-range, are all valid, and end exactly at the length of a (the terminal
sentinel block). -/
theorem pyMatchingBlocks_spec (a b : List α) :
    ChainBound 0 a.length (pyMatchingBlocks a b) ∧
    (∀ bl ∈ pyMatchingBlocks a b, ValidBlock a b bl) ∧
    finalA 0 (pyMatchingBlocks a b) = a.length := by
  obtain ⟨hch, hval⟩ := matchingBlocksAux_spec a b (bpopular b) (a.length + 1)
    0 a.length 0 b.length (Nat.zero_le _) (Nat.zero_le _)
  refine ⟨?_, ?_, ?_⟩
  · refine ChainBound_append _ _ ?_ ⟨Nat.le_refl _, by show a.length + 0 ≤ a.length; omega⟩
    exact mergeRun_chain _ (0, 0, 0) 0 a.length (Nat.le_refl 0) hch
  · intro bl hbl
    rcases List.mem_append.mp hbl with h1 | h2
    · exact mergeRun_valid a b _ (0, 0, 0) (by intro m hm; cases hm) hval bl h1
    · obtain rfl := List.mem_singleton.mp h2
      intro m hm
      cases hm
  · unfold pyMatchingBlocks mergeAdjacent
    rw [finalA_append]
    show a.length + 0 = a.length
    omega

/-- Coverage of the opcode walk: every a-side index below the final cursor
of a chained valid block list lies inside some emitted opcode, which is a
replace, a delete, or an equal opcode whose a-element also occurs in b. -/
theorem opcodesWalk_cover (a b : List α) :
    ∀ (blocks : List (Nat × Nat × Nat)) (i j idx hi : Nat),
      ChainBound i hi blocks → (∀ bl ∈ blocks, ValidBlock a b bl) →
      i ≤ idx → idx < finalA i blocks →
      ∃ c ∈ opcodesWalk i j blocks, c.i1 ≤ idx ∧ idx < c.i2 ∧
        (c.tag = DTag.replace ∨ c.tag = DTag.delete ∨
         (c.tag = DTag.equal ∧ ∃ x, a.get? idx = some x ∧ x ∈ b)) := by
  intro blocks
  induction blocks with
  | nil =>
    intro i j idx hi _ _ hle hlt
    have hfin : finalA i ([] : List (Nat × Nat × Nat)) = i := rfl
    omega
  | cons bl rest ih =>
    intro i j idx hi hch hval hle hlt
    have hfin : finalA i (bl :: rest) = finalA (bl.1 + bl.2.2) rest := rfl
    rw [hfin] at hlt
    obtain ⟨hc1, hc2⟩ := hch
    by_cases h1 : idx < bl.1
    · have hia : i < bl.1 := Nat.lt_of_le_of_lt hle h1
      by_cases hj : j < bl.2.1
      · refine ⟨⟨DTag.replace, i, bl.1, j, bl.2.1⟩, ?_, hle, h1, Or.inl rfl⟩
        simp only [opcodesWalk]
        rw [if_pos ⟨hia, hj⟩]
        exact List.mem_append_left _ (List.mem_append_left _ (List.mem_singleton.mpr rfl))
      · refine ⟨⟨DTag.delete, i, bl.1, j, bl.2.1⟩, ?_, hle, h1, Or.inr (Or.inl rfl)⟩
        simp only [opcodesWalk]
        rw [if_neg (fun h => hj h.2), if_pos hia]
        exact List.mem_append_left _ (List.mem_append_left _ (List.mem_singleton.mpr rfl))
    · by_cases h2 : idx < bl.1 + bl.2.2
      · have hsz : bl.2.2 ≠ 0 := by omega
        have hvb := hval bl (List.mem_cons_self bl rest)
        obtain ⟨x, hx1, hx2⟩ := hvb (idx - bl.1) (by omega)
        refine ⟨⟨DTag.equal, bl.1, bl.1 + bl.2.2, bl.2.1, bl.2.1 + bl.2.2⟩, ?_,
          by show bl.1 ≤ idx; omega, h2, Or.inr (Or.inr ⟨rfl, x, ?_, List.get?_mem hx2⟩)⟩
        · simp only [opcodesWalk]
          refine List.mem_append_left _ (List.mem_append_right _ ?_)
          rw [if_pos hsz]
          exact List.mem_singleton.mpr rfl
        · rw [show idx = bl.1 + (idx - bl.1) from by omega]
          exact hx1
      · obtain ⟨c, hcmem, hcrest⟩ := ih (bl.1 + bl.2.2) (bl.2.1 + bl.2.2) idx hi hc2
          (fun y hy => hval y (List.mem_cons_of_mem bl hy)) (by omega) hlt
        refine ⟨c, ?_, hcrest⟩
        simp only [opcodesWalk]
        exact List.mem_append_right _ hcmem

/-- The leading-equal adjustment keeps every non-equal opcode. -/
theorem adjustFirst_mem {n : Nat} {codes : List Opcode} {c : Opcode}
    (hc : c ∈ codes) (ht : c.tag ≠ DTag.equal) : c ∈ adjustFirst n codes := by
  cases codes with
  | nil => cases hc
  | cons c0 rest =>
    by_cases heq : c0.tag = DTag.equal
    · have hstep : adjustFirst n (c0 :: rest) =
        ⟨DTag.equal, max c0.i1 (c0.i2 - n), c0.i2, max c0.j1 (c0.j2 - n), c0.j2⟩ :: rest := by
        simp only [adjustFirst]
        rw [if_pos heq]
      rw [hstep]
      rcases List.mem_cons.mp hc with rfl | h
      · exact absurd heq ht
      · exact List.mem_cons_of_mem _ h
    · have hstep : adjustFirst n (c0 :: rest) = c0 :: rest := by
        simp only [adjustFirst]
        rw [if_neg heq]
      rw [hstep]
      exact hc

/-- The trailing-equal adjustment keeps every non-equal opcode. -/
theorem adjustLast_mem {n : Nat} {codes : List Opcode} {c : Opcode}
    (hc : c ∈ codes) (ht : c.tag ≠ DTag.equal) : c ∈ adjustLast n codes := by
  unfold adjustLast
  split
  next hnone =>
    rw [List.getLast?_eq_none_iff.mp hnone] at hc
    cases hc
  next c0 hlast =>
    split
    next heq =>
      have hne : codes ≠ [] := by
        intro h; rw [h] at hlast; cases hlast
      have hco : codes.dropLast ++ [codes.getLast hne] = codes :=
        List.dropLast_append_getLast hne
      have hc0 : c0 = codes.getLast hne := by
        have hg := List.getLast?_eq_getLast codes hne
        rw [hlast] at hg
        exact (Option.some.injEq _ _).mp hg
      rw [← hco] at hc
      rcases List.mem_append.mp hc with h | h
      · exact List.mem_append_left _ h
      · obtain rfl := List.mem_singleton.mp h
        rw [hc0] at heq
        exact absurd heq ht
    next => exact hc

/-- Invariant of the grouping fold: an opcode in the pending group or an
already-closed group stays, and every non-equal opcode of the remaining
input lands in the pending group or a closed group. -/
theorem groupStep_fold_mem (n : Nat) :
    ∀ (codes : List Opcode) (gs : List (List Opcode)) (pend : List Opcode) (c : Opcode),
      (c ∈ pend ∨ ∃ g ∈ gs, c ∈ g) ∨ (c ∈ codes ∧ c.tag ≠ DTag.equal) →
      (c ∈ (codes.foldl (groupStep n) (gs, pend)).2 ∨
       ∃ g ∈ (codes.foldl (groupStep n) (gs, pend)).1, c ∈ g) := by
  intro codes
  induction codes with
  | nil =>
    intro gs pend c h
    rcases h with h | ⟨h, _⟩
    · exact h
    · cases h
  | cons c0 rest ih =>
    intro gs pend c h
    rw [List.foldl_cons]
    by_cases hcond : c0.tag = DTag.equal ∧ n + n < c0.i2 - c0.i1
    · have hstep : groupStep n (gs, pend) c0 =
        (gs ++ [pend ++ [⟨DTag.equal, c0.i1, min c0.i2 (c0.i1 + n), c0.j1,
           min c0.j2 (c0.j1 + n)⟩]],
         [⟨DTag.equal, max c0.i1 (c0.i2 - n), c0.i2, max c0.j1 (c0.j2 - n), c0.j2⟩]) := by
        unfold groupStep
        split
        next => rfl
        next hno => exact absurd hcond hno
      rw [hstep]
      rcases h with h | ⟨hmem, ht⟩
      · apply ih
        left
        right
        rcases h with hp | ⟨g, hg, hcg⟩
        · exact ⟨pend ++ [⟨DTag.equal, c0.i1, min c0.i2 (c0.i1 + n), c0.j1,
            min c0.j2 (c0.j1 + n)⟩], List.mem_append_right _ (List.mem_singleton.mpr rfl),
            List.mem_append_left _ hp⟩
        · exact ⟨g, List.mem_append_left _ hg, hcg⟩
      · rcases List.mem_cons.mp hmem with rfl | hrest
        · exact absurd hcond.1 ht
        · exact ih _ _ c (Or.inr ⟨hrest, ht⟩)
    · have hstep : groupStep n (gs, pend) c0 = (gs, pend ++ [c0]) := by
        unfold groupStep
        split
        next hyes => exact absurd hyes hcond
        next => rfl
      rw [hstep]
      rcases h with h | ⟨hmem, ht⟩
      · apply ih
        left
        rcases h with hp | hgs
        · exact Or.inl (List.mem_append_left _ hp)
        · exact Or.inr hgs
      · rcases List.mem_cons.mp hmem with rfl | hrest
        · apply ih
          exact Or.inl (Or.inl (List.mem_append_right _ (List.mem_singleton.mpr rfl)))
        · exact ih _ _ c (Or.inr ⟨hrest, ht⟩)

/-- Every non-equal opcode of the input ends up in some emitted group of
get_grouped_opcodes with zero context. -/
theorem getGroupedOpcodes_mem {codes : List Opcode} {c : Opcode}
    (hc : c ∈ codes) (ht : c.tag ≠ DTag.equal) :
    ∃ g ∈ getGroupedOpcodes 0 codes, c ∈ g := by
  have hne : codes.isEmpty = false := by
    cases codes
    · cases hc
    · rfl
  have hcodes : (if codes.isEmpty = true then [(⟨DTag.equal, 0, 1, 0, 1⟩ : Opcode)]
      else codes) = codes := if_neg (by simp [hne])
  simp only [getGroupedOpcodes, hcodes]
  have hcmem : c ∈ adjustLast 0 (adjustFirst 0 codes) :=
    adjustLast_mem (adjustFirst_mem hc ht) ht
  have hinv := groupStep_fold_mem 0 (adjustLast 0 (adjustFirst 0 codes)) [] [] c
    (Or.inr ⟨hcmem, ht⟩)
  rcases hinv with hpend | ⟨g, hg, hcg⟩
  · split
    next hcond =>
      exact ⟨_, List.mem_append_right _ (List.mem_singleton.mpr rfl), hpend⟩
    next hcond =>
      exfalso
      refine hcond ⟨?_, ?_⟩
      · intro h
        rw [h] at hpend
        cases hpend
      · rintro ⟨hlen, htag⟩
        obtain ⟨x, hx⟩ := List.length_eq_one.mp hlen
        rw [hx] at hpend htag
        obtain rfl := List.mem_singleton.mp hpend
        exact ht (by simpa using htag)
  · split
    next => exact ⟨g, List.mem_append_left _ hg, hcg⟩
    next => exact ⟨g, hg, hcg⟩

/-- A replace or delete opcode emits the minus-prefixed copy of every
a-line in its a-range. -/
theorem emitOpcode_minus_mem (a b : List Line) {c : Opcode} {idx : Nat} {l : Line}
    (htag : c.tag = DTag.replace ∨ c.tag = DTag.delete)
    (h1 : c.i1 ≤ idx) (h2 : idx < c.i2) (hget : a.get? idx = some l) :
    ('-' :: l) ∈ emitOpcode a b c := by
  have hne : c.tag ≠ DTag.equal := by
    rcases htag with h | h <;> rw [h] <;> intro hx <;> cases hx
  unfold emitOpcode
  rw [if_neg hne]
  apply List.mem_append_left
  rw [if_pos htag]
  apply List.mem_map.mpr
  refine ⟨l, ?_, rfl⟩
  unfold pySlice
  have hx : ((a.drop c.i1).take (c.i2 - c.i1)).get? (idx - c.i1) = some l := by
    rw [List.get?_take (by omega), List.get?_drop,
      show c.i1 + (idx - c.i1) = idx from by omega]
    exact hget
  exact List.get?_mem hx

/-- Every line a group opcode emits is nonempty. -/
theorem emitOpcode_ne_nil (a b : List Line) (c : Opcode) :
    ∀ l ∈ emitOpcode a b c, l ≠ [] := by
  intro l hl
  unfold emitOpcode at hl
  split at hl
  next =>
    obtain ⟨x, _, rfl⟩ := List.mem_map.mp hl
    simp
  next =>
    rcases List.mem_append.mp hl with h | h
    · split at h
      next =>
        obtain ⟨x, _, rfl⟩ := List.mem_map.mp h
        simp
      next => cases h
    · split at h
      next =>
        obtain ⟨x, _, rfl⟩ := List.mem_map.mp h
        simp
      next => cases h

/-- Every line of the unified diff is nonempty. -/
theorem pyUnifiedDiff_ne_nil (a b : List Line) (ff tf : Line) :
    ∀ l ∈ pyUnifiedDiff a b ff tf, l ≠ [] := by
  intro l hl
  simp only [pyUnifiedDiff] at hl
  split at hl
  next => cases hl
  next =>
    rcases List.mem_cons.mp hl with rfl | hl2
    · simp
    rcases List.mem_cons.mp hl2 with rfl | hl3
    · simp
    obtain ⟨g, hg, hlg⟩ := List.mem_flatMap.mp hl3
    rcases List.mem_cons.mp hlg with rfl | hl4
    · unfold hunkHeader
      simp
    obtain ⟨c, hc, hlc⟩ := List.mem_flatMap.mp hl4
    exact emitOpcode_ne_nil a b c l hlc

/-- A line of the old text that does not occur in the new text is emitted
by the unified diff with the minus prefix. -/
theorem pyUnifiedDiff_minus_mem (a b : List Line) (ff tf : Line) {idx : Nat} {l : Line}
    (hget : a.get? idx = some l) (hnb : l ∉ b) :
    ('-' :: l) ∈ pyUnifiedDiff a b ff tf := by
  obtain ⟨hch, hval, hfin⟩ := pyMatchingBlocks_spec a b
  have hidx : idx < a.length := by
    rcases List.get?_eq_some.mp hget with ⟨h, _⟩
    exact h
  obtain ⟨c, hcmem, hci1, hci2, htag⟩ := opcodesWalk_cover a b (pyMatchingBlocks a b)
    0 0 idx a.length hch hval (Nat.zero_le idx) (by rw [hfin]; exact hidx)
  have htag2 : c.tag = DTag.replace ∨ c.tag = DTag.delete := by
    rcases htag with h | h | ⟨_, x, hx1, hx2⟩
    · exact Or.inl h
    · exact Or.inr h
    · rw [hget] at hx1
      obtain rfl := (Option.some.injEq _ _).mp hx1
      exact absurd hx2 hnb
  have hne : c.tag ≠ DTag.equal := by
    rcases htag2 with h | h <;> rw [h] <;> intro hx <;> cases hx
  have hcmem2 : c ∈ getOpcodes (pyMatchingBlocks a b) := hcmem
  obtain ⟨g, hg, hcg⟩ := getGroupedOpcodes_mem hcmem2 hne
  have hgne : (getGroupedOpcodes 0 (getOpcodes (pyMatchingBlocks a b))).isEmpty = false := by
    cases hx : getGroupedOpcodes 0 (getOpcodes (pyMatchingBlocks a b))
    · rw [hx] at hg; cases hg
    · rfl
  simp only [pyUnifiedDiff]
  rw [if_neg (by simp [hgne])]
  apply List.mem_cons_of_mem
  apply List.mem_cons_of_mem
  apply List.mem_flatMap.mpr
  refine ⟨g, hg, ?_⟩
  apply List.mem_cons_of_mem
  apply List.mem_flatMap.mpr
  exact ⟨c, hcg, emitOpcode_minus_mem a b htag2 hci1 hci2 hget⟩

/-- A substring of a line is a substring of any extension of the line. -/
theorem containsSub_cons_of {s t : Line} (c : Char) (h : containsSub s t = true) :
    containsSub s (c :: t) = true := by
  show (s.isPrefixOf (c :: t) || containsSub s t) = true
  rw [h, Bool.or_true]

/-- Splitting after a non-delimiter head keeps all fields beyond the first. -/
theorem pySplitOn_cons_ne {x : Char} (l : Line) (hx : x ≠ '"') :
    ∃ f fs, pySplitOn '"' l = f :: fs ∧ pySplitOn '"' (x :: l) = (x :: f) :: fs := by
  cases hsp : pySplitOn '"' l with
  | nil => exact absurd hsp (pySplitOn_ne_nil '"' l)
  | cons f fs =>
    refine ⟨f, fs, rfl, ?_⟩
    show (if x = '"' then [] :: pySplitOn '"' l
      else match pySplitOn '"' l with
      | [] => [[x]]
      | p :: ps => (x :: p) :: ps) = (x :: f) :: fs
    rw [if_neg hx, hsp]

/-- A line accumulated in the pending minus list survives into some hunk
of the collected hunk sequence. -/
theorem collectHunks_acc_minus :
    ∀ (lines : List Line) (minus plus : List Line) (m : Line), m ∈ minus →
      ∃ hk ∈ collectHunks lines minus plus, m ∈ hk.1 := by
  intro lines
  induction lines with
  | nil =>
    intro minus plus m hm
    exact ⟨(minus, plus), List.mem_singleton.mpr rfl, hm⟩
  | cons l rest ih =>
    intro minus plus m hm
    by_cases hq : containsSub "@@".data (pyLower l) = true
    · have hstep : collectHunks (l :: rest) minus plus =
          (minus, plus) :: collectHunks rest [] [] := by
        simp only [collectHunks]
        rw [if_pos hq]
      rw [hstep]
      exact ⟨(minus, plus), List.mem_cons_self _ _, hm⟩
    · cases hpl : pyLower l with
      | nil =>
        have hstep : collectHunks (l :: rest) minus plus = [(minus, plus)] := by
          simp only [collectHunks]
          rw [if_neg hq, hpl]
        rw [hstep]
        exact ⟨(minus, plus), List.mem_singleton.mpr rfl, hm⟩
      | cons c cs =>
        by_cases hc1 : c = '-'
        · have hstep : collectHunks (l :: rest) minus plus =
              collectHunks rest (minus ++ [c :: cs]) plus := by
            simp only [collectHunks]
            rw [if_neg hq, hpl]
            show (if c = '-' then collectHunks rest (minus ++ [c :: cs]) plus
              else if c = '+' then collectHunks rest minus (plus ++ [c :: cs])
              else collectHunks rest minus plus) = _
            rw [if_pos hc1]
          rw [hstep]
          exact ih _ _ m (List.mem_append_left _ hm)
        · by_cases hc2 : c = '+'
          · have hstep : collectHunks (l :: rest) minus plus =
                collectHunks rest minus (plus ++ [c :: cs]) := by
              simp only [collectHunks]
              rw [if_neg hq, hpl]
              show (if c = '-' then collectHunks rest (minus ++ [c :: cs]) plus
                else if c = '+' then collectHunks rest minus (plus ++ [c :: cs])
                else collectHunks rest minus plus) = _
              rw [if_neg hc1, if_pos hc2]
            rw [hstep]
            exact ih _ _ m hm
          · have hstep : collectHunks (l :: rest) minus plus =
                collectHunks rest minus plus := by
              simp only [collectHunks]
              rw [if_neg hq, hpl]
              show (if c = '-' then collectHunks rest (minus ++ [c :: cs]) plus
                else if c = '+' then collectHunks rest minus (plus ++ [c :: cs])
                else collectHunks rest minus plus) = _
              rw [if_neg hc1, if_neg hc2]
            rw [hstep]
            exact ih _ _ m hm

/-- A diff line carrying the minus prefix and no hunk mark lands in the
minus list of some collected hunk, in lowered form. -/
theorem collectHunks_minus_mem :
    ∀ (lines : List Line) (minus plus : List Line) (d : Line) (low : Line),
      (∀ l ∈ lines, l ≠ []) → d ∈ lines → pyLower d = '-' :: low →
      containsSub "@@".data ('-' :: low) = false →
      ∃ hk ∈ collectHunks lines minus plus, ('-' :: low) ∈ hk.1 := by
  intro lines
  induction lines with
  | nil =>
    intro minus plus d low _ hmem _ _
    cases hmem
  | cons l rest ih =>
    intro minus plus d low hne hmem hlow hat
    rcases List.mem_cons.mp hmem with rfl | hmem2
    · have hstep : collectHunks (d :: rest) minus plus =
          collectHunks rest (minus ++ ['-' :: low]) plus := by
        simp only [collectHunks]
        rw [hlow, hat, if_neg Bool.false_ne_true]
        show (if ('-' : Char) = '-' then collectHunks rest (minus ++ ['-' :: low]) plus
          else if ('-' : Char) = '+' then collectHunks rest minus (plus ++ ['-' :: low])
          else collectHunks rest minus plus) = _
        rw [if_pos rfl]
      rw [hstep]
      exact collectHunks_acc_minus rest _ _ _
        (List.mem_append_right _ (List.mem_singleton.mpr rfl))
    · have hner : ∀ x ∈ rest, x ≠ [] := fun x hx => hne x (List.mem_cons_of_mem l hx)
      by_cases hq : containsSub "@@".data (pyLower l) = true
      · have hstep : collectHunks (l :: rest) minus plus =
            (minus, plus) :: collectHunks rest [] [] := by
          simp only [collectHunks]
          rw [if_pos hq]
        rw [hstep]
        obtain ⟨hk, hh, hm⟩ := ih [] [] d low hner hmem2 hlow hat
        exact ⟨hk, List.mem_cons_of_mem _ hh, hm⟩
      · cases hpl : pyLower l with
        | nil =>
          exfalso
          apply hne l (List.mem_cons_self l rest)
          cases l with
          | nil => rfl
          | cons ch chs => exact absurd hpl (by simp [pyLower])
        | cons c cs =>
          by_cases hc1 : c = '-'
          · have hstep : collectHunks (l :: rest) minus plus =
                collectHunks rest (minus ++ [c :: cs]) plus := by
              simp only [collectHunks]
              rw [if_neg hq, hpl]
              show (if c = '-' then collectHunks rest (minus ++ [c :: cs]) plus
                else if c = '+' then collectHunks rest minus (plus ++ [c :: cs])
                else collectHunks rest minus plus) = _
              rw [if_pos hc1]
            rw [hstep]
            exact ih _ _ d low hner hmem2 hlow hat
          · by_cases hc2 : c = '+'
            · have hstep : collectHunks (l :: rest) minus plus =
                  collectHunks rest minus (plus ++ [c :: cs]) := by
                simp only [collectHunks]
                rw [if_neg hq, hpl]
                show (if c = '-' then collectHunks rest (minus ++ [c :: cs]) plus
                  else if c = '+' then collectHunks rest minus (plus ++ [c :: cs])
                  else collectHunks rest minus plus) = _
                rw [if_neg hc1, if_pos hc2]
              rw [hstep]
              exact ih _ _ d low hner hmem2 hlow hat
            · have hstep : collectHunks (l :: rest) minus plus =
                  collectHunks rest minus plus := by
                simp only [collectHunks]
                rw [if_neg hq, hpl]
                show (if c = '-' then collectHunks rest (minus ++ [c :: cs]) plus
                  else if c = '+' then collectHunks rest minus (plus ++ [c :: cs])
                  else collectHunks rest minus plus) = _
                rw [if_neg hc1, if_neg hc2]
              rw [hstep]
              exact ih _ _ d low hner hmem2 hlow hat

/-- Name collection keeps the token of every marker line of its input. -/
theorem extractNames_mem :
    ∀ (ls : List Line) (names : List Name) (m : Line) (t : Name),
      m ∈ ls → containsSub MARKER m = true → extractTok m = Except.ok t →
      extractNames ls = Except.ok names → t ∈ names := by
  intro ls
  induction ls with
  | nil =>
    intro names m t hm _ _ _
    cases hm
  | cons l rest ih =>
    intro names m t hm hmk htok hex
    unfold extractNames at hex
    rcases List.mem_cons.mp hm with rfl | hm2
    · rw [if_pos hmk, htok, okBind] at hex
      obtain ⟨r, hr, hpure⟩ := bind_ok_inv hex
      cases hpure
      exact List.mem_cons_self t r
    · split at hex
      next hl =>
        obtain ⟨tl, htl, hex2⟩ := bind_ok_inv hex
        obtain ⟨r, hr, hpure⟩ := bind_ok_inv hex2
        cases hpure
        exact List.mem_cons_of_mem tl (ih r m t hm2 hmk htok hr)
      next => exact ih names m t hm2 hmk htok hex

/-- Positional pairing emits a record for every marker minus line, as long
as every marker minus line faces a marker plus line. -/
theorem pairPositional_complete :
    ∀ (ms ps : List Line) (out : List ChangeRec) (m : Line) (t : Name),
      ms.length = ps.length →
      (∀ mp ∈ ms.zip ps, containsSub MARKER mp.1 = true → containsSub MARKER mp.2 = true) →
      m ∈ ms → containsSub MARKER m = true → extractTok m = Except.ok t →
      pairPositional ms ps = Except.ok out → ∃ r ∈ out, r.1 = t := by
  intro ms
  induction ms with
  | nil =>
    intro ps out m t _ _ hm _ _ _
    cases hm
  | cons m0 ms ih =>
    intro ps out m t hlen hcarve hm hmk htok hpp
    cases ps with
    | nil => simp at hlen
    | cons p0 ps =>
      have hlen2 : ms.length = ps.length := by simpa using hlen
      have hcarve2 : ∀ mp ∈ ms.zip ps,
          containsSub MARKER mp.1 = true → containsSub MARKER mp.2 = true := by
        intro mp hmp
        exact hcarve mp (by rw [List.zip_cons_cons]; exact List.mem_cons_of_mem _ hmp)
      unfold pairPositional at hpp
      rcases List.mem_cons.mp hm with rfl | hm2
      · have hp0 : containsSub MARKER p0 = true :=
          hcarve (m, p0) (by rw [List.zip_cons_cons]; exact List.mem_cons_self _ _) hmk
        rw [if_pos ⟨hmk, hp0⟩, htok, okBind] at hpp
        obtain ⟨tp, htp, hpp2⟩ := bind_ok_inv hpp
        obtain ⟨r, hr, hpure⟩ := bind_ok_inv hpp2
        cases hpure
        exact ⟨(t, tp), List.mem_cons_self _ _, rfl⟩
      · split at hpp
        next hcond =>
          obtain ⟨tm, htm, h2⟩ := bind_ok_inv hpp
          obtain ⟨tp, htp, h3⟩ := bind_ok_inv h2
          obtain ⟨r, hr, hpure⟩ := bind_ok_inv h3
          cases hpure
          obtain ⟨r0, hr0, hr0t⟩ := ih ps r m t hlen2 hcarve2 hm2 hmk htok hr
          exact ⟨r0, List.mem_cons_of_mem _ hr0, hr0t⟩
        next => exact ih ps out m t hlen2 hcarve2 hm2 hmk htok hpp

/-- The greedy loop keeps every record of its accumulator. -/
theorem greedyLoop_acc_sub :
    ∀ (rs pool : List Name) (acc : List ChangeRec) (res : List ChangeRec × List Name),
      greedyLoop rs pool acc = Except.ok res → ∀ y ∈ acc, y ∈ res.1 := by
  intro rs
  induction rs with
  | nil =>
    intro pool acc res h y hy
    cases h
    exact hy
  | cons r rs ih =>
    intro pool acc res h y hy
    unfold greedyLoop at h
    split at h
    next => exact ih pool _ res h y (List.mem_append_left _ hy)
    next c rest2 hmatch =>
      obtain ⟨pool2, hp2, h2⟩ := bind_ok_inv h
      exact ih pool2 _ res h2 y (List.mem_append_left _ hy)

/-- The greedy loop emits a record whose old field is each removed name. -/
theorem greedyLoop_mem :
    ∀ (rs pool : List Name) (acc : List ChangeRec) (res : List ChangeRec × List Name)
      (t : Name), t ∈ rs → greedyLoop rs pool acc = Except.ok res →
      ∃ c, (t, c) ∈ res.1 := by
  intro rs
  induction rs with
  | nil =>
    intro pool acc res t ht _
    cases ht
  | cons r rs ih =>
    intro pool acc res t ht h
    unfold greedyLoop at h
    rcases List.mem_cons.mp ht with rfl | ht2
    · split at h
      next =>
        exact ⟨[], greedyLoop_acc_sub rs pool _ res h (t, [])
          (List.mem_append_right _ (List.mem_singleton.mpr rfl))⟩
      next c rest2 hmatch =>
        obtain ⟨pool2, hp2, h2⟩ := bind_ok_inv h
        exact ⟨c, greedyLoop_acc_sub rs pool2 _ res h2 (t, c)
          (List.mem_append_right _ (List.mem_singleton.mpr rfl))⟩
    · split at h
      next => exact ih pool _ res t ht2 h
      next c rest2 hmatch =>
        obtain ⟨pool2, hp2, h2⟩ := bind_ok_inv h
        exact ih pool2 _ res t ht2 h2

/-- Hunk classification emits a record whose old field is the token of any
marker minus line, provided marker minus lines of an equal-count hunk face
marker plus lines. -/
theorem pdl_complete (chg : List ChangeRec) (minus plus : List Line)
    (out : List ChangeRec) (m : Line) (t : Name)
    (hm : m ∈ minus) (hmk : containsSub MARKER m = true)
    (htok : extractTok m = Except.ok t)
    (hcarve : minus.length = plus.length →
      ∀ mp ∈ minus.zip plus, containsSub MARKER mp.1 = true → containsSub MARKER mp.2 = true)
    (hok : process_diff_lines chg minus plus = Except.ok out) :
    ∃ r ∈ out, r.1 = t := by
  unfold process_diff_lines at hok
  split at hok
  next hlen =>
    obtain ⟨pairs, hp, hpure⟩ := bind_ok_inv hok
    cases hpure
    obtain ⟨r, hr, hrt⟩ :=
      pairPositional_complete minus plus pairs m t hlen (hcarve hlen) hm hmk htok hp
    exact ⟨r, List.mem_append_right _ hr, hrt⟩
  next hlen =>
    split at hok
    next hm0 =>
      rw [List.length_eq_zero.mp hm0] at hm
      cases hm
    next hm0 =>
      split at hok
      next hp0 =>
        obtain ⟨dels, hd, hpure⟩ := bind_ok_inv hok
        cases hpure
        have ht : t ∈ dels := extractNames_mem minus dels m t hm hmk htok hd
        refine ⟨(t, ([] : Name)), ?_, rfl⟩
        exact List.mem_append_right _ (List.mem_map.mpr ⟨t, ht, rfl⟩)
      next hp0 =>
        obtain ⟨dels, hd, h2⟩ := bind_ok_inv hok
        obtain ⟨adds, ha, h3⟩ := bind_ok_inv h2
        obtain ⟨res, hres, hpure⟩ := bind_ok_inv h3
        cases hpure
        have ht : t ∈ dels := extractNames_mem minus dels m t hm hmk htok hd
        obtain ⟨c, hc⟩ := greedyLoop_mem dels adds [] res t ht hres
        refine ⟨(t, c), ?_, rfl⟩
        exact List.mem_append_left _ (List.mem_append_right _ hc)

/-- Hunk classification extends the incoming change list. -/
theorem pdl_extends (chg : List ChangeRec) (minus plus : List Line) (out : List ChangeRec)
    (hok : process_diff_lines chg minus plus = Except.ok out) : ∀ r ∈ chg, r ∈ out := by
  unfold process_diff_lines at hok
  split at hok
  next =>
    obtain ⟨pairs, hp, hpure⟩ := bind_ok_inv hok
    cases hpure
    intro r hr
    exact List.mem_append_left _ hr
  next =>
    split at hok
    next =>
      obtain ⟨adds, ha, hpure⟩ := bind_ok_inv hok
      cases hpure
      intro r hr
      exact List.mem_append_left _ hr
    next =>
      split at hok
      next =>
        obtain ⟨dels, hd, hpure⟩ := bind_ok_inv hok
        cases hpure
        intro r hr
        exact List.mem_append_left _ hr
      next =>
        obtain ⟨dels, hd, h2⟩ := bind_ok_inv hok
        obtain ⟨adds, ha, h3⟩ := bind_ok_inv h2
        obtain ⟨res, hres, hpure⟩ := bind_ok_inv h3
        cases hpure
        intro r hr
        exact List.mem_append_left _ (List.mem_append_left _ hr)

/-- Associativity of bind in the exception monad. -/
theorem exceptBindAssoc {α β γ : Type} (x : Except PyErr α) (f : α → Except PyErr β)
    (g : β → Except PyErr γ) : (x >>= f) >>= g = x >>= fun a => f a >>= g := by
  cases x <;> rfl

/-- A hunk-mark line flushes the gathered lists through the classifier. -/
theorem classifyLoop_cons_hunk (l : Line) (rest : List Line) (chg : List ChangeRec)
    (minus plus : List Line) (hq : containsSub "@@".data (pyLower l) = true) :
    classifyLoop (l :: rest) chg minus plus =
      (process_diff_lines chg minus plus >>= fun chg2 => classifyLoop rest chg2 [] []) := by
  simp only [classifyLoop]
  rw [if_pos hq]

/-- A content line is routed by its first lowered character. -/
theorem classifyLoop_cons_content (l : Line) (rest : List Line) (chg : List ChangeRec)
    (minus plus : List Line) (c : Char) (cs : Line)
    (hpl : pyLower l = c :: cs) (hq : containsSub "@@".data (c :: cs) = false) :
    classifyLoop (l :: rest) chg minus plus =
      if c = '-' then classifyLoop rest chg (minus ++ [c :: cs]) plus
      else if c = '+' then classifyLoop rest chg minus (plus ++ [c :: cs])
      else classifyLoop rest chg minus plus := by
  simp only [classifyLoop]
  rw [hpl, hq, if_neg Bool.false_ne_true]

/-- Records already gathered survive the rest of the classification and the
final flush. -/
theorem classify_pdl_extends :
    ∀ (lines : List Line) (chg : List ChangeRec) (minus plus : List Line)
      (tent : List ChangeRec),
      (classifyLoop lines chg minus plus >>= fun st =>
        process_diff_lines st.1 st.2.1 st.2.2) = Except.ok tent →
      ∀ r ∈ chg, r ∈ tent := by
  intro lines
  induction lines with
  | nil =>
    intro chg minus plus tent h r hr
    rw [show classifyLoop [] chg minus plus = Except.ok (chg, minus, plus) from rfl,
      okBind] at h
    exact pdl_extends chg minus plus tent h r hr
  | cons l rest ih =>
    intro chg minus plus tent h r hr
    by_cases hq : containsSub "@@".data (pyLower l) = true
    · rw [classifyLoop_cons_hunk l rest chg minus plus hq, exceptBindAssoc] at h
      obtain ⟨chg2, hchg2, h2⟩ := bind_ok_inv h
      exact ih chg2 [] [] tent h2 r (pdl_extends chg minus plus chg2 hchg2 r hr)
    · cases hpl : pyLower l with
      | nil =>
        have hcl : classifyLoop (l :: rest) chg minus plus =
            Except.error "IndexError: string index out of range" := by
          simp only [classifyLoop]
          rw [hpl]
          rfl
        rw [hcl, errBind] at h
        cases h
      | cons c cs =>
        have hq2 : ¬ containsSub "@@".data (c :: cs) = true := by
          rw [← hpl]
          exact hq
        have hqf : containsSub "@@".data (c :: cs) = false := by
          cases hb : containsSub "@@".data (c :: cs)
          · rfl
          · exact absurd hb hq2
        rw [classifyLoop_cons_content l rest chg minus plus c cs hpl hqf] at h
        by_cases hc1 : c = '-'
        · rw [if_pos hc1] at h
          exact ih _ _ _ tent h r hr
        · rw [if_neg hc1] at h
          by_cases hc2 : c = '+'
          · rw [if_pos hc2] at h
            exact ih _ _ _ tent h r hr
          · rw [if_neg hc2] at h
            exact ih _ _ _ tent h r hr

/-- Completeness of the classification pipeline: a stored marker minus line
of some collected hunk yields a record with its token as the old field,
provided equal-count hunks align marker lines. -/
theorem classify_pdl_complete :
    ∀ (lines : List Line) (chg : List ChangeRec) (minus plus : List Line)
      (tent : List ChangeRec) (m : Line) (t : Name),
      (classifyLoop lines chg minus plus >>= fun st =>
        process_diff_lines st.1 st.2.1 st.2.2) = Except.ok tent →
      (∃ hk ∈ collectHunks lines minus plus, m ∈ hk.1) →
      containsSub MARKER m = true → extractTok m = Except.ok t →
      (∀ hk ∈ collectHunks lines minus plus, hk.1.length = hk.2.length →
        ∀ mp ∈ hk.1.zip hk.2, containsSub MARKER mp.1 = true →
          containsSub MARKER mp.2 = true) →
      ∃ r ∈ tent, r.1 = t := by
  intro lines
  induction lines with
  | nil =>
    intro chg minus plus tent m t h hhk hmk htok hcv
    rw [show classifyLoop [] chg minus plus = Except.ok (chg, minus, plus) from rfl,
      okBind] at h
    obtain ⟨hk, hh, hmm⟩ := hhk
    have hks : hk = (minus, plus) := List.mem_singleton.mp hh
    subst hks
    exact pdl_complete chg minus plus tent m t hmm hmk htok
      (fun hl => hcv (minus, plus) (List.mem_singleton.mpr rfl) hl) h
  | cons l rest ih =>
    intro chg minus plus tent m t h hhk hmk htok hcv
    by_cases hq : containsSub "@@".data (pyLower l) = true
    · have hck : collectHunks (l :: rest) minus plus =
          (minus, plus) :: collectHunks rest [] [] := by
        simp only [collectHunks]
        rw [if_pos hq]
      rw [classifyLoop_cons_hunk l rest chg minus plus hq, exceptBindAssoc] at h
      obtain ⟨chg2, hchg2, h2⟩ := bind_ok_inv h
      rw [hck] at hhk hcv
      obtain ⟨hk, hh, hmm⟩ := hhk
      rcases List.mem_cons.mp hh with rfl | hh2
      · obtain ⟨r, hr, hrt⟩ := pdl_complete chg minus plus chg2 m t hmm hmk htok
          (fun hl => hcv (minus, plus) (List.mem_cons_self _ _) hl) hchg2
        exact ⟨r, classify_pdl_extends rest chg2 [] [] tent h2 r hr, hrt⟩
      · exact ih chg2 [] [] tent m t h2 ⟨hk, hh2, hmm⟩ hmk htok
          (fun hk2 hk2m => hcv hk2 (List.mem_cons_of_mem _ hk2m))
    · cases hpl : pyLower l with
      | nil =>
        have hcl : classifyLoop (l :: rest) chg minus plus =
            Except.error "IndexError: string index out of range" := by
          simp only [classifyLoop]
          rw [hpl]
          rfl
        rw [hcl, errBind] at h
        cases h
      | cons c cs =>
        have hq2 : ¬ containsSub "@@".data (c :: cs) = true := by
          rw [← hpl]
          exact hq
        have hqf : containsSub "@@".data (c :: cs) = false := by
          cases hb : containsSub "@@".data (c :: cs)
          · rfl
          · exact absurd hb hq2
        have hck : collectHunks (l :: rest) minus plus =
            (if c = '-' then collectHunks rest (minus ++ [c :: cs]) plus
             else if c = '+' then collectHunks rest minus (plus ++ [c :: cs])
             else collectHunks rest minus plus) := by
          simp only [collectHunks]
          rw [hpl, hqf, if_neg Bool.false_ne_true]
        rw [classifyLoop_cons_content l rest chg minus plus c cs hpl hqf] at h
        rw [hck] at hhk hcv
        by_cases hc1 : c = '-'
        · rw [if_pos hc1] at h hhk hcv
          exact ih chg _ plus tent m t h hhk hmk htok hcv
        · rw [if_neg hc1] at h hhk hcv
          by_cases hc2 : c = '+'
          · rw [if_pos hc2] at h hhk hcv
            exact ih chg minus _ tent m t h hhk hmk htok hcv
          · rw [if_neg hc2] at h hhk hcv
            exact ih chg minus plus tent m t h hhk hmk htok hcv

/-- An element different from the erased one survives erasure. -/
theorem pyErase_mem_ne {α : Type} [DecidableEq α] {l : List α} {x y : α}
    (hx : x ∈ l) (hne : x ≠ y) : x ∈ pyErase l y := by
  induction l with
  | nil => cases hx
  | cons z zs ih =>
    simp only [pyErase]
    split
    next hz =>
      rcases List.mem_cons.mp hx with rfl | h
      · exact absurd hz hne
      · exact h
    next hz =>
      rcases List.mem_cons.mp hx with rfl | h
      · exact List.mem_cons_self _ _
      · exact List.mem_cons_of_mem _ (ih h)

/-- One sweep-1 iteration keeps some record with any given old field. -/
theorem sweep1Step_pres {repsNew news : List Name} {cur cur2 : List ChangeRec}
    {r0 : ChangeRec} {t : Name} (ht : ∃ x ∈ cur, x.1 = t)
    (hok : sweep1Step repsNew news cur r0 = Except.ok cur2) : ∃ x ∈ cur2, x.1 = t := by
  unfold sweep1Step at hok
  split at hok
  next =>
    cases hok
    exact ht
  next c rest hmatch =>
    obtain ⟨mo, hmo, h2⟩ := bind_ok_inv hok
    split at h2
    next hmoeq =>
      split at h2
      next hcin =>
        obtain ⟨curA, hcurA, h3⟩ := bind_ok_inv h2
        obtain ⟨orig, horig, hpure⟩ := bind_ok_inv h3
        cases hpure
        have hA : curA = pyErase cur r0 := pyRemove_ok_inv hcurA
        subst hA
        obtain ⟨x, hx, hxt⟩ := ht
        by_cases hxr : x = r0
        · subst hxr
          refine ⟨(x.1, c), ?_, hxt⟩
          exact List.mem_append_right _ (by simp)
        · refine ⟨x, ?_, hxt⟩
          exact List.mem_append_left _ (List.mem_append_left _ (pyErase_mem_ne hx hxr))
      next hcnin =>
        obtain ⟨curA, hcurA, hpure⟩ := bind_ok_inv h2
        cases hpure
        have hA : curA = pyErase cur r0 := pyRemove_ok_inv hcurA
        subst hA
        obtain ⟨x, hx, hxt⟩ := ht
        by_cases hxr : x = r0
        · subst hxr
          refine ⟨(x.1, c), ?_, hxt⟩
          exact List.mem_append_right _ (by simp)
        · exact ⟨x, List.mem_append_left _ (pyErase_mem_ne hx hxr), hxt⟩
    next =>
      cases h2
      exact ht

/-- The sweep-1 fold keeps some record with any given old field. -/
theorem sweep1_fold_pres {repsNew news : List Name} {t : Name} :
    ∀ (reps : List ChangeRec) (L out : List ChangeRec),
      (∃ x ∈ L, x.1 = t) → reps.foldlM (sweep1Step repsNew news) L = Except.ok out →
      ∃ x ∈ out, x.1 = t := by
  intro reps
  induction reps with
  | nil =>
    intro L out h hf
    cases hf
    exact h
  | cons r0 rs ih =>
    intro L out h hf
    rw [List.foldlM_cons] at hf
    obtain ⟨L2, hL2, h2⟩ := bind_ok_inv hf
    exact ih L2 out (sweep1Step_pres h hL2) h2

/-- One sweep-2 iteration keeps some record with any given nonempty old
field. -/
theorem sweep2Step_pres {repsNew news : List Name} {cur cur2 : List ChangeRec}
    {d t : Name} (htne : t ≠ []) (ht : ∃ x ∈ cur, x.1 = t)
    (hok : sweep2Step repsNew news cur d = Except.ok cur2) : ∃ x ∈ cur2, x.1 = t := by
  unfold sweep2Step at hok
  split at hok
  next =>
    cases hok
    exact ht
  next c rest hmatch =>
    split at hok
    next hcin =>
      obtain ⟨orig, horig, h2⟩ := bind_ok_inv hok
      obtain ⟨mo, hmo, h3⟩ := bind_ok_inv h2
      split at h3
      next => cases h3
      next =>
        cases h3
        exact ht
    next hcnin =>
      obtain ⟨curA, hcurA, h2⟩ := bind_ok_inv hok
      obtain ⟨curB, hcurB, hpure⟩ := bind_ok_inv h2
      cases hpure
      have hA : curA = pyErase cur (d, ([] : Name)) := pyRemove_ok_inv hcurA
      subst hA
      have hB : curB = pyErase (pyErase cur (d, ([] : Name))) (([] : Name), c) :=
        pyRemove_ok_inv hcurB
      subst hB
      obtain ⟨x, hx, hxt⟩ := ht
      by_cases hx1 : x = (d, ([] : Name))
      · refine ⟨(d, c), List.mem_append_right _ (List.mem_singleton.mpr rfl), ?_⟩
        rw [hx1] at hxt
        exact hxt
      · by_cases hx2 : x = (([] : Name), c)
        · exfalso
          rw [hx2] at hxt
          exact htne hxt.symm
        · exact ⟨x, List.mem_append_left _ (pyErase_mem_ne (pyErase_mem_ne hx hx1) hx2), hxt⟩

/-- The sweep-2 fold keeps some record with any given nonempty old field. -/
theorem sweep2_fold_pres {repsNew news : List Name} {t : Name} (htne : t ≠ []) :
    ∀ (dels : List Name) (L out : List ChangeRec),
      (∃ x ∈ L, x.1 = t) → dels.foldlM (sweep2Step repsNew news) L = Except.ok out →
      ∃ x ∈ out, x.1 = t := by
  intro dels
  induction dels with
  | nil =>
    intro L out h hf
    cases hf
    exact h
  | cons d ds ih =>
    intro L out h hf
    rw [List.foldlM_cons] at hf
    obtain ⟨L2, hL2, h2⟩ := bind_ok_inv hf
    exact ih L2 out (sweep2Step_pres htne h hL2) h2

/-- The two reconciliation sweeps keep some record with any given nonempty
old field. -/
theorem globalReconcile_pres {L out : List ChangeRec} {t : Name} (htne : t ≠ [])
    (ht : ∃ x ∈ L, x.1 = t) (hok : globalReconcile L = Except.ok out) :
    ∃ x ∈ out, x.1 = t := by
  unfold globalReconcile at hok
  obtain ⟨M, hM, h2⟩ := bind_ok_inv hok
  have h1 : ∃ x ∈ M, x.1 = t := by
    unfold sweep1 at hM
    exact sweep1_fold_pres _ L M ht hM
  unfold sweep2 at h2
  exact sweep2_fold_pres htne _ M out h1 h2


/-- A b-chained block list stays chained from any smaller starting cursor. -/
theorem ChainBoundB_mono {lo2 lo hi : Nat} (h : lo2 ≤ lo) :
    ∀ (blocks : List (Nat × Nat × Nat)), ChainBoundB lo hi blocks → ChainBoundB lo2 hi blocks := by
  intro blocks hb
  cases blocks with
  | nil => exact le_trans h hb
  | cons bl rest => exact ⟨le_trans h hb.1, hb.2⟩

/-- b-chained block lists concatenate across a middle cursor. -/
theorem ChainBoundB_append {lo mid hi : Nat} :
    ∀ (xs ys : List (Nat × Nat × Nat)),
      ChainBoundB lo mid xs → ChainBoundB mid hi ys → ChainBoundB lo hi (xs ++ ys) := by
  intro xs
  induction xs generalizing lo with
  | nil => intro ys h1 h2; exact ChainBoundB_mono h1 ys h2
  | cons bl rest ih => intro ys h1 h2; exact ⟨h1.1, ih ys h1.2 h2⟩

/-- The final b-cursor of a concatenation is the final b-cursor of the
second part started at the final b-cursor of the first. -/
theorem finalB_append :
    ∀ (xs ys : List (Nat × Nat × Nat)) (j : Nat),
      finalB j (xs ++ ys) = finalB (finalB j xs) ys := by
  intro xs
  induction xs with
  | nil => intro ys j; rfl
  | cons bl rest ih => intro ys j; exact ih ys (bl.2.1 + bl.2.2)

/-- The recursion of get_matching_blocks yields blocks chained inside the
b-window as well. -/
theorem matchingBlocksAux_specB (a b : List α) (pop : α → Bool) :
    ∀ (fuel alo ahi blo bhi : Nat), alo ≤ ahi → blo ≤ bhi →
      ChainBoundB blo bhi (matchingBlocksAux a b pop fuel alo ahi blo bhi) := by
  intro fuel
  induction fuel with
  | zero =>
    intro alo ahi blo bhi h1 h2
    exact h2
  | succ n ih =>
    intro alo ahi blo bhi h1 h2
    simp only [matchingBlocksAux]
    obtain ⟨f1, f2, f3, f4, f5⟩ := findLongestMatch_spec a b pop alo ahi blo bhi h1 h2
    split
    next hk => exact h2
    next hk =>
      have cl := ih alo (findLongestMatch a b pop alo ahi blo bhi).1
        blo (findLongestMatch a b pop alo ahi blo bhi).2.1 f1 f2
      have cr := ih
        ((findLongestMatch a b pop alo ahi blo bhi).1 +
          (findLongestMatch a b pop alo ahi blo bhi).2.2) ahi
        ((findLongestMatch a b pop alo ahi blo bhi).2.1 +
          (findLongestMatch a b pop alo ahi blo bhi).2.2) bhi f3 f4
      rw [List.append_assoc]
      exact ChainBoundB_append _ _ cl ⟨Nat.le_refl _, cr⟩

/-- The merge loop keeps the block list b-chained. -/
theorem mergeRun_chainB :
    ∀ (blocks : List (Nat × Nat × Nat)) (cur : Nat × Nat × Nat) (lo hi : Nat),
      lo ≤ cur.2.1 → ChainBoundB (cur.2.1 + cur.2.2) hi blocks →
      ChainBoundB lo hi (mergeRun cur blocks) := by
  intro blocks
  induction blocks with
  | nil =>
    intro cur lo hi h1 h2
    unfold mergeRun
    split
    next => exact ⟨h1, h2⟩
    next => exact le_trans h1 (le_trans (Nat.le_add_right _ _) h2)
  | cons bl rest ih =>
    intro cur lo hi h1 h2
    unfold mergeRun
    split
    next hadj =>
      obtain ⟨ha1, ha2⟩ := hadj
      apply ih (cur.1, cur.2.1, cur.2.2 + bl.2.2) lo hi h1
      show ChainBoundB (cur.2.1 + (cur.2.2 + bl.2.2)) hi rest
      rw [show cur.2.1 + (cur.2.2 + bl.2.2) = bl.2.1 + bl.2.2 from by omega]
      exact h2.2
    next hnadj =>
      have hrec := ih bl (cur.2.1 + cur.2.2) hi h2.1 h2.2
      split
      next => exact ⟨h1, hrec⟩
      next => exact ChainBoundB_mono (le_trans h1 (Nat.le_add_right _ _)) _ hrec

/-- The matching blocks are b-chained inside the b-range and end exactly at
the length of b (the terminal sentinel block). -/
theorem pyMatchingBlocks_specB (a b : List α) :
    ChainBoundB 0 b.length (pyMatchingBlocks a b) ∧
    finalB 0 (pyMatchingBlocks a b) = b.length := by
  have hch := matchingBlocksAux_specB a b (bpopular b) (a.length + 1)
    0 a.length 0 b.length (Nat.zero_le _) (Nat.zero_le _)
  constructor
  · refine ChainBoundB_append _ _ ?_ ⟨Nat.le_refl _, by show b.length + 0 ≤ b.length; omega⟩
    exact mergeRun_chainB _ (0, 0, 0) 0 b.length (Nat.le_refl 0) hch
  · unfold pyMatchingBlocks mergeAdjacent
    rw [finalB_append]
    show b.length + 0 = b.length
    omega

/-- Coverage of the opcode walk on the b side: every b-side index below the
final b-cursor of a chained valid block list lies inside some emitted
opcode, which is a replace, an insert, or an equal opcode whose b-element
also occurs in a. -/
theorem opcodesWalk_coverB (a b : List α) :
    ∀ (blocks : List (Nat × Nat × Nat)) (i j jdx hi : Nat),
      ChainBoundB j hi blocks → (∀ bl ∈ blocks, ValidBlock a b bl) →
      j ≤ jdx → jdx < finalB j blocks →
      ∃ c ∈ opcodesWalk i j blocks, c.j1 ≤ jdx ∧ jdx < c.j2 ∧
        (c.tag = DTag.replace ∨ c.tag = DTag.insert ∨
         (c.tag = DTag.equal ∧ ∃ x, b.get? jdx = some x ∧ x ∈ a)) := by
  intro blocks
  induction blocks with
  | nil =>
    intro i j jdx hi _ _ hle hlt
    have hfin : finalB j ([] : List (Nat × Nat × Nat)) = j := rfl
    omega
  | cons bl rest ih =>
    intro i j jdx hi hch hval hle hlt
    have hfin : finalB j (bl :: rest) = finalB (bl.2.1 + bl.2.2) rest := rfl
    rw [hfin] at hlt
    obtain ⟨hc1, hc2⟩ := hch
    by_cases h1 : jdx < bl.2.1
    · have hjb : j < bl.2.1 := Nat.lt_of_le_of_lt hle h1
      by_cases hi2 : i < bl.1
      · refine ⟨⟨DTag.replace, i, bl.1, j, bl.2.1⟩, ?_, hle, h1, Or.inl rfl⟩
        simp only [opcodesWalk]
        rw [if_pos ⟨hi2, hjb⟩]
        exact List.mem_append_left _ (List.mem_append_left _ (List.mem_singleton.mpr rfl))
      · refine ⟨⟨DTag.insert, i, bl.1, j, bl.2.1⟩, ?_, hle, h1, Or.inr (Or.inl rfl)⟩
        simp only [opcodesWalk]
        rw [if_neg (fun h => hi2 h.1), if_neg hi2, if_pos hjb]
        exact List.mem_append_left _ (List.mem_append_left _ (List.mem_singleton.mpr rfl))
    · by_cases h2 : jdx < bl.2.1 + bl.2.2
      · have hsz : bl.2.2 ≠ 0 := by omega
        have hvb := hval bl (List.mem_cons_self bl rest)
        obtain ⟨x, hx1, hx2⟩ := hvb (jdx - bl.2.1) (by omega)
        refine ⟨⟨DTag.equal, bl.1, bl.1 + bl.2.2, bl.2.1, bl.2.1 + bl.2.2⟩, ?_,
          by show bl.2.1 ≤ jdx; omega, h2, Or.inr (Or.inr ⟨rfl, x, ?_, List.get?_mem hx1⟩)⟩
        · simp only [opcodesWalk]
          refine List.mem_append_left _ (List.mem_append_right _ ?_)
          rw [if_pos hsz]
          exact List.mem_singleton.mpr rfl
        · rw [show jdx = bl.2.1 + (jdx - bl.2.1) from by omega]
          exact hx2
      · obtain ⟨c, hcmem, hcrest⟩ := ih (bl.1 + bl.2.2) (bl.2.1 + bl.2.2) jdx hi hc2
          (fun y hy => hval y (List.mem_cons_of_mem bl hy)) (by omega) hlt
        refine ⟨c, ?_, hcrest⟩
        simp only [opcodesWalk]
        exact List.mem_append_right _ hcmem

/-- A replace or insert opcode emits the plus-prefixed copy of every
b-line in its b-range. -/
theorem emitOpcode_plus_mem (a b : List Line) {c : Opcode} {jdx : Nat} {l : Line}
    (htag : c.tag = DTag.replace ∨ c.tag = DTag.insert)
    (h1 : c.j1 ≤ jdx) (h2 : jdx < c.j2) (hget : b.get? jdx = some l) :
    ('+' :: l) ∈ emitOpcode a b c := by
  have hne : c.tag ≠ DTag.equal := by
    rcases htag with h | h <;> rw [h] <;> intro hx <;> cases hx
  unfold emitOpcode
  rw [if_neg hne]
  apply List.mem_append_right
  rw [if_pos htag]
  apply List.mem_map.mpr
  refine ⟨l, ?_, rfl⟩
  unfold pySlice
  have hx : ((b.drop c.j1).take (c.j2 - c.j1)).get? (jdx - c.j1) = some l := by
    rw [List.get?_take (by omega), List.get?_drop,
      show c.j1 + (jdx - c.j1) = jdx from by omega]
    exact hget
  exact List.get?_mem hx

/-- A line of the new text that does not occur in the old text is emitted
by the unified diff with the plus prefix. -/
theorem pyUnifiedDiff_plus_mem (a b : List Line) (ff tf : Line) {jdx : Nat} {l : Line}
    (hget : b.get? jdx = some l) (hna : l ∉ a) :
    ('+' :: l) ∈ pyUnifiedDiff a b ff tf := by
  obtain ⟨_, hval, _⟩ := pyMatchingBlocks_spec a b
  obtain ⟨hch, hfin⟩ := pyMatchingBlocks_specB a b
  have hjdx : jdx < b.length := by
    rcases List.get?_eq_some.mp hget with ⟨h, _⟩
    exact h
  obtain ⟨c, hcmem, hcj1, hcj2, htag⟩ := opcodesWalk_coverB a b (pyMatchingBlocks a b)
    0 0 jdx b.length hch hval (Nat.zero_le jdx) (by rw [hfin]; exact hjdx)
  have htag2 : c.tag = DTag.replace ∨ c.tag = DTag.insert := by
    rcases htag with h | h | ⟨_, x, hx1, hx2⟩
    · exact Or.inl h
    · exact Or.inr h
    · rw [hget] at hx1
      obtain rfl := (Option.some.injEq _ _).mp hx1
      exact absurd hx2 hna
  have hne : c.tag ≠ DTag.equal := by
    rcases htag2 with h | h <;> rw [h] <;> intro hx <;> cases hx
  have hcmem2 : c ∈ getOpcodes (pyMatchingBlocks a b) := hcmem
  obtain ⟨g, hg, hcg⟩ := getGroupedOpcodes_mem hcmem2 hne
  have hgne : (getGroupedOpcodes 0 (getOpcodes (pyMatchingBlocks a b))).isEmpty = false := by
    cases hx : getGroupedOpcodes 0 (getOpcodes (pyMatchingBlocks a b))
    · rw [hx] at hg; cases hg
    · rfl
  simp only [pyUnifiedDiff]
  rw [if_neg (by simp [hgne])]
  apply List.mem_cons_of_mem
  apply List.mem_cons_of_mem
  apply List.mem_flatMap.mpr
  refine ⟨g, hg, ?_⟩
  apply List.mem_cons_of_mem
  apply List.mem_flatMap.mpr
  exact ⟨c, hcg, emitOpcode_plus_mem a b htag2 hcj1 hcj2 hget⟩

/-- A line accumulated in the pending plus list survives into some hunk of
the collected hunk sequence. -/
theorem collectHunks_acc_plus :
    ∀ (lines : List Line) (minus plus : List Line) (p : Line), p ∈ plus →
      ∃ hk ∈ collectHunks lines minus plus, p ∈ hk.2 := by
  intro lines
  induction lines with
  | nil =>
    intro minus plus p hp
    exact ⟨(minus, plus), List.mem_singleton.mpr rfl, hp⟩
  | cons l rest ih =>
    intro minus plus p hp
    by_cases hq : containsSub "@@".data (pyLower l) = true
    · have hstep : collectHunks (l :: rest) minus plus =
          (minus, plus) :: collectHunks rest [] [] := by
        simp only [collectHunks]
        rw [if_pos hq]
      rw [hstep]
      exact ⟨(minus, plus), List.mem_cons_self _ _, hp⟩
    · cases hpl : pyLower l with
      | nil =>
        have hstep : collectHunks (l :: rest) minus plus = [(minus, plus)] := by
          simp only [collectHunks]
          rw [if_neg hq, hpl]
        rw [hstep]
        exact ⟨(minus, plus), List.mem_singleton.mpr rfl, hp⟩
      | cons c cs =>
        by_cases hc1 : c = '-'
        · have hstep : collectHunks (l :: rest) minus plus =
              collectHunks rest (minus ++ [c :: cs]) plus := by
            simp only [collectHunks]
            rw [if_neg hq, hpl]
            show (if c = '-' then collectHunks rest (minus ++ [c :: cs]) plus
              else if c = '+' then collectHunks rest minus (plus ++ [c :: cs])
              else collectHunks rest minus plus) = _
            rw [if_pos hc1]
          rw [hstep]
          exact ih _ _ p hp
        · by_cases hc2 : c = '+'
          · have hstep : collectHunks (l :: rest) minus plus =
                collectHunks rest minus (plus ++ [c :: cs]) := by
              simp only [collectHunks]
              rw [if_neg hq, hpl]
              show (if c = '-' then collectHunks rest (minus ++ [c :: cs]) plus
                else if c = '+' then collectHunks rest minus (plus ++ [c :: cs])
                else collectHunks rest minus plus) = _
              rw [if_neg hc1, if_pos hc2]
            rw [hstep]
            exact ih _ _ p (List.mem_append_left _ hp)
          · have hstep : collectHunks (l :: rest) minus plus =
                collectHunks rest minus plus := by
              simp only [collectHunks]
              rw [if_neg hq, hpl]
              show (if c = '-' then collectHunks rest (minus ++ [c :: cs]) plus
                else if c = '+' then collectHunks rest minus (plus ++ [c :: cs])
                else collectHunks rest minus plus) = _
              rw [if_neg hc1, if_neg hc2]
            rw [hstep]
            exact ih _ _ p hp

/-- A diff line carrying the plus prefix and no hunk mark lands in the
plus list of some collected hunk, in lowered form. -/
theorem collectHunks_plus_mem :
    ∀ (lines : List Line) (minus plus : List Line) (d : Line) (low : Line),
      (∀ l ∈ lines, l ≠ []) → d ∈ lines → pyLower d = '+' :: low →
      containsSub "@@".data ('+' :: low) = false →
      ∃ hk ∈ collectHunks lines minus plus, ('+' :: low) ∈ hk.2 := by
  intro lines
  induction lines with
  | nil =>
    intro minus plus d low _ hmem _ _
    cases hmem
  | cons l rest ih =>
    intro minus plus d low hne hmem hlow hat
    rcases List.mem_cons.mp hmem with rfl | hmem2
    · have hstep : collectHunks (d :: rest) minus plus =
          collectHunks rest minus (plus ++ ['+' :: low]) := by
        simp only [collectHunks]
        rw [hlow, hat, if_neg Bool.false_ne_true]
        show (if ('+' : Char) = '-' then collectHunks rest (minus ++ ['+' :: low]) plus
          else if ('+' : Char) = '+' then collectHunks rest minus (plus ++ ['+' :: low])
          else collectHunks rest minus plus) = _
        rw [if_neg (by decide), if_pos rfl]
      rw [hstep]
      exact collectHunks_acc_plus rest _ _ _
        (List.mem_append_right _ (List.mem_singleton.mpr rfl))
    · have hner : ∀ x ∈ rest, x ≠ [] := fun x hx => hne x (List.mem_cons_of_mem l hx)
      by_cases hq : containsSub "@@".data (pyLower l) = true
      · have hstep : collectHunks (l :: rest) minus plus =
            (minus, plus) :: collectHunks rest [] [] := by
          simp only [collectHunks]
          rw [if_pos hq]
        rw [hstep]
        obtain ⟨hk, hh, hm⟩ := ih [] [] d low hner hmem2 hlow hat
        exact ⟨hk, List.mem_cons_of_mem _ hh, hm⟩
      · cases hpl : pyLower l with
        | nil =>
          exfalso
          apply hne l (List.mem_cons_self l rest)
          cases l with
          | nil => rfl
          | cons ch chs => exact absurd hpl (by simp [pyLower])
        | cons c cs =>
          by_cases hc1 : c = '-'
          · have hstep : collectHunks (l :: rest) minus plus =
                collectHunks rest (minus ++ [c :: cs]) plus := by
              simp only [collectHunks]
              rw [if_neg hq, hpl]
              show (if c = '-' then collectHunks rest (minus ++ [c :: cs]) plus
                else if c = '+' then collectHunks rest minus (plus ++ [c :: cs])
                else collectHunks rest minus plus) = _
              rw [if_pos hc1]
            rw [hstep]
            exact ih _ _ d low hner hmem2 hlow hat
          · by_cases hc2 : c = '+'
            · have hstep : collectHunks (l :: rest) minus plus =
                  collectHunks rest minus (plus ++ [c :: cs]) := by
                simp only [collectHunks]
                rw [if_neg hq, hpl]
                show (if c = '-' then collectHunks rest (minus ++ [c :: cs]) plus
                  else if c = '+' then collectHunks rest minus (plus ++ [c :: cs])
                  else collectHunks rest minus plus) = _
                rw [if_neg hc1, if_pos hc2]
              rw [hstep]
              exact ih _ _ d low hner hmem2 hlow hat
            · have hstep : collectHunks (l :: rest) minus plus =
                  collectHunks rest minus plus := by
                simp only [collectHunks]
                rw [if_neg hq, hpl]
                show (if c = '-' then collectHunks rest (minus ++ [c :: cs]) plus
                  else if c = '+' then collectHunks rest minus (plus ++ [c :: cs])
                  else collectHunks rest minus plus) = _
                rw [if_neg hc1, if_neg hc2]
              rw [hstep]
              exact ih _ _ d low hner hmem2 hlow hat

/-- Positional pairing emits a record whose new field is the token of every
marker plus line, as long as every marker plus line faces a marker minus
line. -/
theorem pairPositional_complete_plus :
    ∀ (ms ps : List Line) (out : List ChangeRec) (p : Line) (t : Name),
      ms.length = ps.length →
      (∀ mp ∈ ms.zip ps, containsSub MARKER mp.2 = true → containsSub MARKER mp.1 = true) →
      p ∈ ps → containsSub MARKER p = true → extractTok p = Except.ok t →
      pairPositional ms ps = Except.ok out → ∃ r ∈ out, r.2 = t := by
  intro ms
  induction ms with
  | nil =>
    intro ps out p t hlen _ hp _ _ _
    rw [List.length_eq_zero.mp hlen.symm] at hp
    cases hp
  | cons m0 ms ih =>
    intro ps out p t hlen hcarve hp hmk htok hpp
    cases ps with
    | nil => cases hp
    | cons p0 ps =>
      have hlen2 : ms.length = ps.length := by simpa using hlen
      have hcarve2 : ∀ mp ∈ ms.zip ps,
          containsSub MARKER mp.2 = true → containsSub MARKER mp.1 = true := by
        intro mp hmp
        exact hcarve mp (by rw [List.zip_cons_cons]; exact List.mem_cons_of_mem _ hmp)
      unfold pairPositional at hpp
      rcases List.mem_cons.mp hp with rfl | hp2
      · have hm0 : containsSub MARKER m0 = true :=
          hcarve (m0, p) (by rw [List.zip_cons_cons]; exact List.mem_cons_self _ _) hmk
        rw [if_pos ⟨hm0, hmk⟩] at hpp
        obtain ⟨tm, htm, h2⟩ := bind_ok_inv hpp
        rw [htok, okBind] at h2
        obtain ⟨r, hr, hpure⟩ := bind_ok_inv h2
        cases hpure
        exact ⟨(tm, t), List.mem_cons_self _ _, rfl⟩
      · split at hpp
        next hcond =>
          obtain ⟨tm, htm, h2⟩ := bind_ok_inv hpp
          obtain ⟨tp, htp, h3⟩ := bind_ok_inv h2
          obtain ⟨r, hr, hpure⟩ := bind_ok_inv h3
          cases hpure
          obtain ⟨r0, hr0, hr0t⟩ := ih ps r p t hlen2 hcarve2 hp2 hmk htok hr
          exact ⟨r0, List.mem_cons_of_mem _ hr0, hr0t⟩
        next => exact ih ps out p t hlen2 hcarve2 hp2 hmk htok hpp

/-- Every name of the candidate pool either gets consumed by a rename
record or survives into the leftover pool of the greedy loop. -/
theorem greedyLoop_pool_mem :
    ∀ (rs pool : List Name) (acc : List ChangeRec) (res : List ChangeRec × List Name)
      (t : Name), t ∈ pool → greedyLoop rs pool acc = Except.ok res →
      (∃ x, (x, t) ∈ res.1) ∨ t ∈ res.2 := by
  intro rs
  induction rs with
  | nil =>
    intro pool acc res t ht h
    cases h
    exact Or.inr ht
  | cons r rs ih =>
    intro pool acc res t ht h
    unfold greedyLoop at h
    split at h
    next => exact ih pool _ res t ht h
    next c rest2 hmatch =>
      obtain ⟨pool2, hp2, h2⟩ := bind_ok_inv h
      have hpool2 : pool2 = pyErase pool c := pyRemove_ok_inv hp2
      subst hpool2
      by_cases htc : t = c
      · subst htc
        exact Or.inl ⟨r, greedyLoop_acc_sub rs (pyErase pool t) _ res h2 (r, t)
          (List.mem_append_right _ (List.mem_singleton.mpr rfl))⟩
      · exact ih (pyErase pool c) _ res t (pyErase_mem_ne ht htc) h2

/-- Hunk classification emits a record whose new field is the token of any
marker plus line, provided marker plus lines of an equal-count hunk face
marker minus lines. -/
theorem pdl_complete_plus (chg : List ChangeRec) (minus plus : List Line)
    (out : List ChangeRec) (p : Line) (t : Name)
    (hp : p ∈ plus) (hmk : containsSub MARKER p = true)
    (htok : extractTok p = Except.ok t)
    (hcarve : minus.length = plus.length →
      ∀ mp ∈ minus.zip plus, containsSub MARKER mp.2 = true → containsSub MARKER mp.1 = true)
    (hok : process_diff_lines chg minus plus = Except.ok out) :
    ∃ r ∈ out, r.2 = t := by
  unfold process_diff_lines at hok
  split at hok
  next hlen =>
    obtain ⟨pairs, hpr, hpure⟩ := bind_ok_inv hok
    cases hpure
    obtain ⟨r, hr, hrt⟩ :=
      pairPositional_complete_plus minus plus pairs p t hlen (hcarve hlen) hp hmk htok hpr
    exact ⟨r, List.mem_append_right _ hr, hrt⟩
  next hlen =>
    split at hok
    next hm0 =>
      obtain ⟨adds, ha, hpure⟩ := bind_ok_inv hok
      cases hpure
      have ht : t ∈ adds := extractNames_mem plus adds p t hp hmk htok ha
      refine ⟨(([] : Name), t), ?_, rfl⟩
      exact List.mem_append_right _ (List.mem_map.mpr ⟨t, ht, rfl⟩)
    next hm0 =>
      split at hok
      next hp0 =>
        rw [List.length_eq_zero.mp hp0] at hp
        cases hp
      next hp0 =>
        obtain ⟨dels, hd, h2⟩ := bind_ok_inv hok
        obtain ⟨adds, ha, h3⟩ := bind_ok_inv h2
        obtain ⟨res, hres, hpure⟩ := bind_ok_inv h3
        cases hpure
        have ht : t ∈ adds := extractNames_mem plus adds p t hp hmk htok ha
        rcases greedyLoop_pool_mem dels adds [] res t ht hres with ⟨x, hx⟩ | hleft
        · refine ⟨(x, t), ?_, rfl⟩
          exact List.mem_append_left _ (List.mem_append_right _ hx)
        · refine ⟨(([] : Name), t), ?_, rfl⟩
          exact List.mem_append_right _ (List.mem_map.mpr ⟨t, hleft, rfl⟩)

/-- Completeness of the classification pipeline on the plus side: a stored
marker plus line of some collected hunk yields a record with its token as
the new field, provided equal-count hunks align marker lines. -/
theorem classify_pdl_complete_plus :
    ∀ (lines : List Line) (chg : List ChangeRec) (minus plus : List Line)
      (tent : List ChangeRec) (p : Line) (t : Name),
      (classifyLoop lines chg minus plus >>= fun st =>
        process_diff_lines st.1 st.2.1 st.2.2) = Except.ok tent →
      (∃ hk ∈ collectHunks lines minus plus, p ∈ hk.2) →
      containsSub MARKER p = true → extractTok p = Except.ok t →
      (∀ hk ∈ collectHunks lines minus plus, hk.1.length = hk.2.length →
        ∀ mp ∈ hk.1.zip hk.2, containsSub MARKER mp.2 = true →
          containsSub MARKER mp.1 = true) →
      ∃ r ∈ tent, r.2 = t := by
  intro lines
  induction lines with
  | nil =>
    intro chg minus plus tent p t h hhk hmk htok hcv
    rw [show classifyLoop [] chg minus plus = Except.ok (chg, minus, plus) from rfl,
      okBind] at h
    obtain ⟨hk, hh, hmm⟩ := hhk
    have hks : hk = (minus, plus) := List.mem_singleton.mp hh
    subst hks
    exact pdl_complete_plus chg minus plus tent p t hmm hmk htok
      (fun hl => hcv (minus, plus) (List.mem_singleton.mpr rfl) hl) h
  | cons l rest ih =>
    intro chg minus plus tent p t h hhk hmk htok hcv
    by_cases hq : containsSub "@@".data (pyLower l) = true
    · have hck : collectHunks (l :: rest) minus plus =
          (minus, plus) :: collectHunks rest [] [] := by
        simp only [collectHunks]
        rw [if_pos hq]
      rw [classifyLoop_cons_hunk l rest chg minus plus hq, exceptBindAssoc] at h
      obtain ⟨chg2, hchg2, h2⟩ := bind_ok_inv h
      rw [hck] at hhk hcv
      obtain ⟨hk, hh, hmm⟩ := hhk
      rcases List.mem_cons.mp hh with rfl | hh2
      · obtain ⟨r, hr, hrt⟩ := pdl_complete_plus chg minus plus chg2 p t hmm hmk htok
          (fun hl => hcv (minus, plus) (List.mem_cons_self _ _) hl) hchg2
        exact ⟨r, classify_pdl_extends rest chg2 [] [] tent h2 r hr, hrt⟩
      · exact ih chg2 [] [] tent p t h2 ⟨hk, hh2, hmm⟩ hmk htok
          (fun hk2 hk2m => hcv hk2 (List.mem_cons_of_mem _ hk2m))
    · cases hpl : pyLower l with
      | nil =>
        have hcl : classifyLoop (l :: rest) chg minus plus =
            Except.error "IndexError: string index out of range" := by
          simp only [classifyLoop]
          rw [hpl]
          rfl
        rw [hcl, errBind] at h
        cases h
      | cons c cs =>
        have hq2 : ¬ containsSub "@@".data (c :: cs) = true := by
          rw [← hpl]
          exact hq
        have hqf : containsSub "@@".data (c :: cs) = false := by
          cases hb : containsSub "@@".data (c :: cs)
          · rfl
          · exact absurd hb hq2
        have hck : collectHunks (l :: rest) minus plus =
            (if c = '-' then collectHunks rest (minus ++ [c :: cs]) plus
             else if c = '+' then collectHunks rest minus (plus ++ [c :: cs])
             else collectHunks rest minus plus) := by
          simp only [collectHunks]
          rw [hpl, hqf, if_neg Bool.false_ne_true]
        rw [classifyLoop_cons_content l rest chg minus plus c cs hpl hqf] at h
        rw [hck] at hhk hcv
        by_cases hc1 : c = '-'
        · rw [if_pos hc1] at h hhk hcv
          exact ih chg _ plus tent p t h hhk hmk htok hcv
        · rw [if_neg hc1] at h hhk hcv
          by_cases hc2 : c = '+'
          · rw [if_pos hc2] at h hhk hcv
            exact ih chg minus _ tent p t h hhk hmk htok hcv
          · rw [if_neg hc2] at h hhk hcv
            exact ih chg minus plus tent p t h hhk hmk htok hcv

/-- One sweep-1 iteration keeps some record with any given new field: a
removed rename reinstates its former target as a pure addition. -/
theorem sweep1Step_pres2 {repsNew news : List Name} {cur cur2 : List ChangeRec}
    {r0 : ChangeRec} {t : Name} (ht : ∃ x ∈ cur, x.2 = t)
    (hok : sweep1Step repsNew news cur r0 = Except.ok cur2) : ∃ x ∈ cur2, x.2 = t := by
  unfold sweep1Step at hok
  split at hok
  next =>
    cases hok
    exact ht
  next c rest hmatch =>
    obtain ⟨mo, hmo, h2⟩ := bind_ok_inv hok
    split at h2
    next hmoeq =>
      split at h2
      next hcin =>
        obtain ⟨curA, hcurA, h3⟩ := bind_ok_inv h2
        obtain ⟨orig, horig, hpure⟩ := bind_ok_inv h3
        cases hpure
        have hA : curA = pyErase cur r0 := pyRemove_ok_inv hcurA
        subst hA
        obtain ⟨x, hx, hxt⟩ := ht
        by_cases hxr : x = r0
        · subst hxr
          refine ⟨(([] : Name), x.2), ?_, hxt⟩
          exact List.mem_append_left _
            (List.mem_append_right _ (List.mem_singleton.mpr rfl))
        · refine ⟨x, ?_, hxt⟩
          exact List.mem_append_left _ (List.mem_append_left _ (pyErase_mem_ne hx hxr))
      next hcnin =>
        obtain ⟨curA, hcurA, hpure⟩ := bind_ok_inv h2
        cases hpure
        have hA : curA = pyErase cur r0 := pyRemove_ok_inv hcurA
        subst hA
        obtain ⟨x, hx, hxt⟩ := ht
        by_cases hxr : x = r0
        · subst hxr
          refine ⟨(([] : Name), x.2), ?_, hxt⟩
          exact List.mem_append_right _ (List.mem_cons_self _ _)
        · exact ⟨x, List.mem_append_left _ (pyErase_mem_ne hx hxr), hxt⟩
    next =>
      cases h2
      exact ht

/-- The sweep-1 fold keeps some record with any given new field. -/
theorem sweep1_fold_pres2 {repsNew news : List Name} {t : Name} :
    ∀ (reps : List ChangeRec) (L out : List ChangeRec),
      (∃ x ∈ L, x.2 = t) → reps.foldlM (sweep1Step repsNew news) L = Except.ok out →
      ∃ x ∈ out, x.2 = t := by
  intro reps
  induction reps with
  | nil =>
    intro L out h hf
    cases hf
    exact h
  | cons r0 rs ih =>
    intro L out h hf
    rw [List.foldlM_cons] at hf
    obtain ⟨L2, hL2, h2⟩ := bind_ok_inv hf
    exact ih L2 out (sweep1Step_pres2 h hL2) h2

/-- One sweep-2 iteration keeps some record with any given nonempty new
field. -/
theorem sweep2Step_pres2 {repsNew news : List Name} {cur cur2 : List ChangeRec}
    {d t : Name} (htne : t ≠ []) (ht : ∃ x ∈ cur, x.2 = t)
    (hok : sweep2Step repsNew news cur d = Except.ok cur2) : ∃ x ∈ cur2, x.2 = t := by
  unfold sweep2Step at hok
  split at hok
  next =>
    cases hok
    exact ht
  next c rest hmatch =>
    split at hok
    next hcin =>
      obtain ⟨orig, horig, h2⟩ := bind_ok_inv hok
      obtain ⟨mo, hmo, h3⟩ := bind_ok_inv h2
      split at h3
      next => cases h3
      next =>
        cases h3
        exact ht
    next hcnin =>
      obtain ⟨curA, hcurA, h2⟩ := bind_ok_inv hok
      obtain ⟨curB, hcurB, hpure⟩ := bind_ok_inv h2
      cases hpure
      have hA : curA = pyErase cur (d, ([] : Name)) := pyRemove_ok_inv hcurA
      subst hA
      have hB : curB = pyErase (pyErase cur (d, ([] : Name))) (([] : Name), c) :=
        pyRemove_ok_inv hcurB
      subst hB
      obtain ⟨x, hx, hxt⟩ := ht
      by_cases hx1 : x = (d, ([] : Name))
      · exfalso
        rw [hx1] at hxt
        exact htne hxt.symm
      · by_cases hx2 : x = (([] : Name), c)
        · refine ⟨(d, c), List.mem_append_right _ (List.mem_singleton.mpr rfl), ?_⟩
          rw [hx2] at hxt
          exact hxt
        · exact ⟨x, List.mem_append_left _ (pyErase_mem_ne (pyErase_mem_ne hx hx1) hx2), hxt⟩

/-- The sweep-2 fold keeps some record with any given nonempty new field. -/
theorem sweep2_fold_pres2 {repsNew news : List Name} {t : Name} (htne : t ≠ []) :
    ∀ (dels : List Name) (L out : List ChangeRec),
      (∃ x ∈ L, x.2 = t) → dels.foldlM (sweep2Step repsNew news) L = Except.ok out →
      ∃ x ∈ out, x.2 = t := by
  intro dels
  induction dels with
  | nil =>
    intro L out h hf
    cases hf
    exact h
  | cons d ds ih =>
    intro L out h hf
    rw [List.foldlM_cons] at hf
    obtain ⟨L2, hL2, h2⟩ := bind_ok_inv hf
    exact ih L2 out (sweep2Step_pres2 htne h hL2) h2

/-- The two reconciliation sweeps keep some record with any given nonempty
new field. -/
theorem globalReconcile_pres2 {L out : List ChangeRec} {t : Name} (htne : t ≠ [])
    (ht : ∃ x ∈ L, x.2 = t) (hok : globalReconcile L = Except.ok out) :
    ∃ x ∈ out, x.2 = t := by
  unfold globalReconcile at hok
  obtain ⟨M, hM, h2⟩ := bind_ok_inv hok
  have h1 : ∃ x ∈ M, x.2 = t := by
    unfold sweep1 at hM
    exact sweep1_fold_pres2 _ L M ht hM
  unfold sweep2 at h2
  exact sweep2_fold_pres2 htne _ M out h1 h2

/-- Claim C4 (amended): completeness holds on both sides under the
provisos the code imposes.  Provided the content lines of the two texts
carry no hunk mark of their own and in every collected hunk with equal
minus/plus line counts the marker lines face each other, every nonempty
name declared in the old text and not in the new text appears as the old
field of some record of the final change list, and every nonempty name
declared in the new text and not in the old text appears as the new field
of some record (in each case as a rename or as a pure removal/addition).
The equal-count alignment proviso is necessary: the counterexample shows a
removed declaration facing a non-declaration line in an equal-count hunk
is silently dropped. -/
theorem C4_amended (a b : List Line) (ff tf : Line)
    (out : List ChangeRec × Nat × Nat × Nat)
    (hat : ∀ l ∈ a, containsSub "@@".data (pyLower l) = false)
    (hbt : ∀ l ∈ b, containsSub "@@".data (pyLower l) = false)
    (hcarve : ∀ hk ∈ collectHunks (pyUnifiedDiff a b ff tf) [] [],
      hk.1.length = hk.2.length →
      ∀ mp ∈ hk.1.zip hk.2,
        (containsSub MARKER mp.1 = true → containsSub MARKER mp.2 = true) ∧
        (containsSub MARKER mp.2 = true → containsSub MARKER mp.1 = true))
    (hok : find_changed_vars a b ff tf = Except.ok out) :
    (∀ name : Name, name ≠ [] → name ∈ declaredNames a → name ∉ declaredNames b →
      ∃ r ∈ out.1, r.1 = name) ∧
    (∀ name : Name, name ≠ [] → name ∈ declaredNames b → name ∉ declaredNames a →
      ∃ r ∈ out.1, r.2 = name) := by
  unfold find_changed_vars at hok
  obtain ⟨T, hT, h2⟩ := bind_ok_inv hok
  obtain ⟨G, hG, hpure⟩ := bind_ok_inv h2
  cases hpure
  unfold tentativeOf at hT
  constructor
  · intro name hname hdecl habs
    unfold declaredNames at hdecl
    obtain ⟨l, hla, hdo⟩ := List.mem_filterMap.mp hdecl
    have hdo0 := hdo
    unfold declOf at hdo
    split at hdo
    next hmk =>
      obtain ⟨idx, hget⟩ := List.mem_iff_get?.mp hla
      have hlb : l ∉ b := by
        intro hlb
        apply habs
        unfold declaredNames
        exact List.mem_filterMap.mpr ⟨l, hlb, hdo0⟩
      have hdiff : ('-' :: l) ∈ pyUnifiedDiff a b ff tf :=
        pyUnifiedDiff_minus_mem a b ff tf hget hlb
      have hdash : Char.toLower '-' = '-' := by decide
      have hlowline : pyLower ('-' :: l) = '-' :: pyLower l := by
        show Char.toLower '-' :: pyLower l = '-' :: pyLower l
        rw [hdash]
      have hal := hat l hla
      have hpre : ("@@".data).isPrefixOf ('-' :: pyLower l) = false := rfl
      have hq : containsSub "@@".data ('-' :: pyLower l) = false := by
        show (("@@".data).isPrefixOf ('-' :: pyLower l) ||
          containsSub "@@".data (pyLower l)) = false
        rw [hpre, hal]
        rfl
      obtain ⟨hk, hhk, hmhk⟩ := collectHunks_minus_mem (pyUnifiedDiff a b ff tf) [] []
        ('-' :: l) (pyLower l) (pyUnifiedDiff_ne_nil a b ff tf) hdiff hlowline hq
      have hmk2 : containsSub MARKER ('-' :: pyLower l) = true :=
        containsSub_cons_of '-' hmk
      obtain ⟨f, fs, hsplit1, hsplit2⟩ :=
        pySplitOn_cons_ne (x := '-') (pyLower l) (by decide)
      have htok : extractTok ('-' :: pyLower l) = Except.ok name := by
        unfold extractTok
        rw [hsplit2]
        unfold pyGet
        have hgoal : ((('-' :: f) :: fs).get? 1) = fs.get? 0 := rfl
        rw [hgoal]
        rw [hsplit1] at hdo
        have hdo2 : fs.get? 0 = some name := hdo
        rw [hdo2]
      obtain ⟨r, hrT, hrt⟩ := classify_pdl_complete (pyUnifiedDiff a b ff tf) [] [] [] T
        ('-' :: pyLower l) name hT ⟨hk, hhk, hmhk⟩ hmk2 htok
        (fun hk2 hk2m hl mp hmp => (hcarve hk2 hk2m hl mp hmp).1)
      obtain ⟨rG, hrG, hrGt⟩ := globalReconcile_pres hname ⟨r, hrT, hrt⟩ hG
      exact ⟨rG, hrG, hrGt⟩
    next => cases hdo
  · intro name hname hdecl habs
    unfold declaredNames at hdecl
    obtain ⟨l, hlb, hdo⟩ := List.mem_filterMap.mp hdecl
    have hdo0 := hdo
    unfold declOf at hdo
    split at hdo
    next hmk =>
      obtain ⟨jdx, hget⟩ := List.mem_iff_get?.mp hlb
      have hla : l ∉ a := by
        intro hla
        apply habs
        unfold declaredNames
        exact List.mem_filterMap.mpr ⟨l, hla, hdo0⟩
      have hdiff : ('+' :: l) ∈ pyUnifiedDiff a b ff tf :=
        pyUnifiedDiff_plus_mem a b ff tf hget hla
      have hplus : Char.toLower '+' = '+' := by decide
      have hlowline : pyLower ('+' :: l) = '+' :: pyLower l := by
        show Char.toLower '+' :: pyLower l = '+' :: pyLower l
        rw [hplus]
      have hbl := hbt l hlb
      have hpre : ("@@".data).isPrefixOf ('+' :: pyLower l) = false := rfl
      have hq : containsSub "@@".data ('+' :: pyLower l) = false := by
        show (("@@".data).isPrefixOf ('+' :: pyLower l) ||
          containsSub "@@".data (pyLower l)) = false
        rw [hpre, hbl]
        rfl
      obtain ⟨hk, hhk, hmhk⟩ := collectHunks_plus_mem (pyUnifiedDiff a b ff tf) [] []
        ('+' :: l) (pyLower l) (pyUnifiedDiff_ne_nil a b ff tf) hdiff hlowline hq
      have hmk2 : containsSub MARKER ('+' :: pyLower l) = true :=
        containsSub_cons_of '+' hmk
      obtain ⟨f, fs, hsplit1, hsplit2⟩ :=
        pySplitOn_cons_ne (x := '+') (pyLower l) (by decide)
      have htok : extractTok ('+' :: pyLower l) = Except.ok name := by
        unfold extractTok
        rw [hsplit2]
        unfold pyGet
        have hgoal : ((('+' :: f) :: fs).get? 1) = fs.get? 0 := rfl
        rw [hgoal]
        rw [hsplit1] at hdo
        have hdo2 : fs.get? 0 = some name := hdo
        rw [hdo2]
      obtain ⟨r, hrT, hrt⟩ := classify_pdl_complete_plus (pyUnifiedDiff a b ff tf)
        [] [] [] T ('+' :: pyLower l) name hT ⟨hk, hhk, hmhk⟩ hmk2 htok
        (fun hk2 hk2m hl mp hmp => (hcarve hk2 hk2m hl mp hmp).2)
      obtain ⟨rG, hrG, hrGt⟩ := globalReconcile_pres2 hname ⟨r, hrT, hrt⟩ hG
      exact ⟨rG, hrG, hrGt⟩
    next => cases hdo

/-- Witness for the amended claim C4, exercising both halves: the old text
declares gone_var, the new text declares new_var, and the final change
list holds the rename record carrying gone_var as old and new_var as new. -/
theorem C4_amended_witness :
    (∃ r ∈ [("gone_var".data, "new_var".data)], r.1 = "gone_var".data) ∧
    (∃ r ∈ [("gone_var".data, "new_var".data)], r.2 = "new_var".data) :=
  ⟨(C4_amended w4OldText w4NewTextB "old_file".data "new_file".data
      ([("gone_var".data, "new_var".data)], 1, 0, 0)
      (by decide) (by decide) (by decide) rfl).1 "gone_var".data
      (by decide) (by decide) (by decide),
   (C4_amended w4OldText w4NewTextB "old_file".data "new_file".data
      ([("gone_var".data, "new_var".data)], 1, 0, 0)
      (by decide) (by decide) (by decide) rfl).2 "new_var".data
      (by decide) (by decide) (by decide)⟩

end SeqMatchLemmas
